import Mathlib

/-!
Verification of the Membership_Manager pipeline (bank_parser.py, llm_classifier.py).

Shallow embedding conventions:
* Python strings are `List Char` (`Str`); `str.upper()` is modelled on the ASCII
  range (chars 97..122 map down by 32, everything else is fixed), and the regex
  classes `\d` / `\s` are modelled as the ASCII digits / whitespace characters.
* Python floats are modelled as exact rationals `ℚ`; `round(x, 2)` is modelled
  as round-half-to-even on the exact rational.
* Dynamic (JSON-valued) dict entries are modelled by the `JVal` type, and a
  Python statement that raises is modelled by an `Option` result (`none` means
  the exception propagates to the nearest enclosing handler).
* Scanning loops that a regex `re.sub` performs are written as structural
  recursions (state-machine style) so that all definitions evaluate by `decide`.
-/

/-- Python strings as lists of characters. -/
abbrev Str := List Char

/-- ASCII model of `str.upper()` on one character. -/
def charUpper (c : Char) : Char :=
  if 97 ≤ c.toNat ∧ c.toNat ≤ 122 then Char.ofNat (c.toNat - 32) else c

/-- ASCII model of the regex class `\d`. -/
def pyIsDigit (c : Char) : Bool := 48 ≤ c.toNat && c.toNat ≤ 57

/-- ASCII model of the regex class `\s` (space, tab, newline, vertical tab,
form feed, carriage return). -/
def pyIsSpace (c : Char) : Bool :=
  c.toNat = 32 || (9 ≤ c.toNat && c.toNat ≤ 13)

/-- Model of `str.upper()`. -/
def pyUpper (s : Str) : Str := s.map charUpper

/-- Model of `s.lstrip()` (used as half of `str.strip()`). -/
def lstrip (s : Str) : Str := s.dropWhile (fun c => pyIsSpace c)

/-- Model of `s.rstrip()` (used as half of `str.strip()`). -/
def rstrip (s : Str) : Str := (s.reverse.dropWhile (fun c => pyIsSpace c)).reverse

/-- Model of `str.strip()`. -/
def pyStrip (s : Str) : Str := rstrip (lstrip s)

/-- State machine for `re.sub(r"\s+", " ", s)`: the flag records whether we
are inside a whitespace run for which a `' '` has already been emitted. -/
def collapseGo : Bool → Str → Str
  | _, [] => []
  | inRun, c :: cs =>
    if pyIsSpace c then
      (if inRun then collapseGo true cs else ' ' :: collapseGo true cs)
    else c :: collapseGo false cs

/-- Model of `re.sub(r"\s+", " ", s)`. -/
def collapseWs (s : Str) : Str := collapseGo false s

/-- State machine for `re.sub(r"\d{4,}", "", s)`: `pend` accumulates (in
reverse) the digit run currently being read; a run is flushed when a non-digit
or the end of the string is reached, and dropped when its length is ≥ 4. -/
def sub4Go (pend : Str) : Str → Str
  | [] => if 4 ≤ pend.length then [] else pend.reverse
  | c :: cs =>
    if pyIsDigit c then sub4Go (c :: pend) cs
    else (if 4 ≤ pend.length then [] else pend.reverse) ++ c :: sub4Go [] cs

/-- Model of `re.sub(r"\d{4,}", "", s)` (strip runs of 4 or more digits). -/
def sub4Digits (s : Str) : Str := sub4Go [] s

/-- State machine for `str.split()` (split on whitespace runs, no empty
tokens); `acc` holds the token currently being read, in reverse. -/
def splitGo (acc : Str) : Str → List Str
  | [] => if acc.isEmpty then [] else [acc.reverse]
  | c :: cs =>
    if pyIsSpace c then
      (if acc.isEmpty then splitGo [] cs else acc.reverse :: splitGo [] cs)
    else splitGo (c :: acc) cs

/-- Model of `str.split()`. -/
def splitWs (s : Str) : List Str := splitGo [] s

/-- Model of `" ".join(words)`. -/
def joinSp : List Str → Str
  | [] => []
  | [w] => w
  | w :: ws => w ++ ' ' :: joinSp ws

/-- Model of the Python substring test `needle in hay`. -/
def pyContains : Str → Str → Bool
  | n, [] => n.isPrefixOf []
  | n, c :: cs => n.isPrefixOf (c :: cs) || pyContains n cs

/-- BankStatementParser._extract_merchant: uppercase, strip runs of 4+ digits,
collapse whitespace, keep the first 3 tokens; if no token remains, fall back
to the first 30 characters of the original description. -/
def extractMerchant (description : Str) : Str :=
  let desc := pyUpper description
  let desc2 := sub4Digits desc
  let desc3 := pyStrip (collapseWs desc2)
  let words := (splitWs desc3).take 3
  if words.isEmpty then description.take 30 else joinSp words

/-! Character-level facts about the ASCII uppercase model. -/

theorem char_toNat_ofNat (n : Nat) (h : n < 55296) : (Char.ofNat n).toNat = n := by
  have hv : n.isValidChar := Or.inl h
  simp only [Char.ofNat, dif_pos hv, Char.ofNatAux, Char.toNat]
  simp [UInt32.toNat, BitVec.toNat_ofNat]

theorem charUpper_toNat (c : Char) :
    (charUpper c).toNat =
      if 97 ≤ c.toNat ∧ c.toNat ≤ 122 then c.toNat - 32 else c.toNat := by
  unfold charUpper
  split
  case isTrue h => exact char_toNat_ofNat _ (by omega)
  case isFalse h => rfl

theorem charUpper_not_lower (c : Char) :
    ¬ (97 ≤ (charUpper c).toNat ∧ (charUpper c).toNat ≤ 122) := by
  rw [charUpper_toNat]
  split
  case isTrue h => omega
  case isFalse h => exact h

theorem charUpper_eq_self (c : Char) (h : ¬ (97 ≤ c.toNat ∧ c.toNat ≤ 122)) :
    charUpper c = c := by
  unfold charUpper
  exact if_neg h

theorem charUpper_idem (c : Char) : charUpper (charUpper c) = charUpper c :=
  charUpper_eq_self _ (charUpper_not_lower c)

theorem pyUpper_eq_self (s : Str) (h : ∀ c ∈ s, charUpper c = c) :
    pyUpper s = s := by
  induction s with
  | nil => rfl
  | cons c cs ih =>
    have h1 := h c (by simp)
    have h2 := ih (fun d hd => h d (by simp [hd]))
    simp only [pyUpper, List.map_cons] at h2 ⊢
    rw [h1, h2]

theorem space_not_digit (c : Char) (h : pyIsSpace c = true) : pyIsDigit c = false := by
  simp only [pyIsSpace, Bool.or_eq_true, Bool.and_eq_true, decide_eq_true_eq] at h
  simp only [pyIsDigit]
  simp only [Bool.and_eq_false_iff, decide_eq_false_iff_not]
  omega

/-! A run counter for 4-consecutive-digit detection: `hasRun4 k s` is true iff
`s`, read after `k` pending digits, contains a run of 4 consecutive digits. -/

def hasRun4 (k : Nat) : Str → Bool
  | [] => false
  | c :: cs => if pyIsDigit c then (decide (4 ≤ k + 1)) || hasRun4 (k + 1) cs
               else hasRun4 0 cs

theorem hasRun4_mono {s : Str} :
    ∀ {k k' : Nat}, k' ≤ k → hasRun4 k s = false → hasRun4 k' s = false := by
  induction s with
  | nil => intro k k' _ _; rfl
  | cons c cs ih =>
    intro k k' hle h
    by_cases hd : pyIsDigit c
    · simp only [hasRun4, hd, if_true, Bool.or_eq_false_iff,
        decide_eq_false_iff_not] at h ⊢
      exact ⟨by omega, ih (by omega) h.2⟩
    · simpa only [hasRun4, hd, if_false] using h

theorem hasRun4_append_left {a b : Str} :
    ∀ {k : Nat}, hasRun4 k (a ++ b) = false → hasRun4 k a = false := by
  induction a with
  | nil => intro k _; rfl
  | cons c cs ih =>
    intro k h
    by_cases hd : pyIsDigit c
    · simp only [List.cons_append, hasRun4, hd, if_true, Bool.or_eq_false_iff] at h ⊢
      exact ⟨h.1, ih h.2⟩
    · simp only [List.cons_append, hasRun4, hd, if_false] at h ⊢
      exact ih h

theorem hasRun4_append_right {a b : Str} :
    ∀ {k : Nat}, hasRun4 k (a ++ b) = false → hasRun4 0 b = false := by
  induction a with
  | nil => intro k h; exact hasRun4_mono (Nat.zero_le k) h
  | cons c cs ih =>
    intro k h
    by_cases hd : pyIsDigit c
    · simp only [List.cons_append, hasRun4, hd, if_true, Bool.or_eq_false_iff] at h
      exact ih h.2
    · simp only [List.cons_append, hasRun4, hd, if_false] at h
      exact ih h

theorem hasRun4_digit_block {a : Str} (ha : ∀ c ∈ a, pyIsDigit c = true) :
    ∀ {k : Nat} {b : Str}, k + a.length ≤ 3 → hasRun4 k (a ++ b) = hasRun4 (k + a.length) b := by
  induction a with
  | nil => intro k b _; simp
  | cons c cs ih =>
    intro k b hlen
    have hd : pyIsDigit c = true := ha c (by simp)
    have hlen2 : (c :: cs).length = cs.length + 1 := by simp
    have hlen' : (k + 1) + cs.length ≤ 3 := by omega
    simp only [List.cons_append, hasRun4, hd, if_true, List.append_eq]
    have h4 : (decide (4 ≤ k + 1)) = false := by
      simp only [decide_eq_false_iff_not]; omega
    rw [h4, Bool.false_or, ih (fun d hd2 => ha d (by simp [hd2])) hlen']
    have hk : k + (c :: cs).length = (k + 1) + cs.length := by omega
    rw [hk]

theorem hasRun4_sep {b : Str} {c : Char} (hc : pyIsDigit c = false) {k : Nat} :
    hasRun4 k (c :: b) = hasRun4 0 b := by
  simp [hasRun4, hc]

/-! Facts about the digit-run stripper `sub4Go`. -/

theorem sub4Go_cons_digit {c : Char} (hd : pyIsDigit c = true) (pend cs : Str) :
    sub4Go pend (c :: cs) = sub4Go (c :: pend) cs := by
  simp [sub4Go, hd]

theorem sub4Go_cons_nondigit {c : Char} (hd : pyIsDigit c = false) (pend cs : Str) :
    sub4Go pend (c :: cs) =
      (if 4 ≤ pend.length then [] else pend.reverse) ++ c :: sub4Go [] cs := by
  simp [sub4Go, hd]

theorem sub4Go_eq_of_noRun :
    ∀ (s pend : Str), pend.length ≤ 3 → hasRun4 pend.length s = false →
      sub4Go pend s = pend.reverse ++ s := by
  intro s
  induction s with
  | nil =>
    intro pend hlen _
    simp only [sub4Go, if_neg (by omega : ¬ 4 ≤ pend.length), List.append_nil]
  | cons c cs ih =>
    intro pend hlen h
    rcases Bool.eq_false_or_eq_true (pyIsDigit c) with hd | hd
    · simp only [hasRun4, hd, if_true, Bool.or_eq_false_iff,
        decide_eq_false_iff_not] at h
      obtain ⟨ha, hb⟩ := h
      have h1 : (c :: pend).length ≤ 3 := by simp only [List.length_cons]; omega
      have h2 : hasRun4 (c :: pend).length cs = false := by
        simpa using hb
      rw [sub4Go_cons_digit hd, ih (c :: pend) h1 h2]
      simp
    · have h0 : hasRun4 0 cs = false := by
        rw [hasRun4_sep hd] at h; exact h
      rw [sub4Go_cons_nondigit hd, if_neg (by omega : ¬ 4 ≤ pend.length),
        show sub4Go [] cs = ([] : Str).reverse ++ cs from ih [] (by simp) (by simpa using h0)]
      simp

theorem hasRun4_sub4Go :
    ∀ (s pend : Str), (∀ c ∈ pend, pyIsDigit c = true) →
      hasRun4 0 (sub4Go pend s) = false := by
  intro s
  induction s with
  | nil =>
    intro pend hp
    by_cases h4 : 4 ≤ pend.length
    · simp [sub4Go, h4, hasRun4]
    · simp only [sub4Go, if_neg h4]
      have := hasRun4_digit_block (a := pend.reverse)
        (fun c hc => hp c (List.mem_reverse.mp hc)) (k := 0) (b := [])
      simp only [List.append_nil, List.length_reverse] at this
      rw [this (by omega)]
      rfl
  | cons c cs ih =>
    intro pend hp
    rcases Bool.eq_false_or_eq_true (pyIsDigit c) with hd | hd
    · rw [sub4Go_cons_digit hd]
      exact ih (c :: pend) (by
        intro d hdm
        rcases List.mem_cons.mp hdm with h | h
        · subst h; exact hd
        · exact hp d h)
    · rw [sub4Go_cons_nondigit hd]
      by_cases h4 : 4 ≤ pend.length
      · rw [if_pos h4, List.nil_append, hasRun4_sep hd]
        exact ih [] (by intro d hd2; cases hd2)
      · rw [if_neg h4]
        have := hasRun4_digit_block (a := pend.reverse)
          (fun d hc => hp d (List.mem_reverse.mp hc)) (k := 0)
          (b := c :: sub4Go [] cs)
        simp only [List.length_reverse] at this
        rw [this (by omega), hasRun4_sep hd]
        exact ih [] (by intro d hd2; cases hd2)

theorem mem_sub4Go :
    ∀ (s pend : Str) (c : Char), c ∈ sub4Go pend s → c ∈ pend ∨ c ∈ s := by
  intro s
  induction s with
  | nil =>
    intro pend c hc
    by_cases h4 : 4 ≤ pend.length
    · simp [sub4Go, h4] at hc
    · simp only [sub4Go, if_neg h4] at hc
      exact Or.inl (List.mem_reverse.mp hc)
  | cons d cs ih =>
    intro pend c hc
    rcases Bool.eq_false_or_eq_true (pyIsDigit d) with hd | hd
    · rw [sub4Go_cons_digit hd] at hc
      rcases ih (d :: pend) c hc with h | h
      · rcases List.mem_cons.mp h with h | h
        · subst h; exact Or.inr (by simp)
        · exact Or.inl h
      · exact Or.inr (by simp [h])
    · rw [sub4Go_cons_nondigit hd] at hc
      rcases List.mem_append.mp hc with h | h
      · split at h
        · cases h
        · exact Or.inl (List.mem_reverse.mp h)
      · rcases List.mem_cons.mp h with h | h
        · subst h; exact Or.inr (by simp)
        · rcases ih [] c h with h2 | h2
          · cases h2
          · exact Or.inr (by simp [h2])

/-! Facts about the whitespace collapser `collapseGo`. -/

theorem collapseGo_cons_space {c : Char} (hs : pyIsSpace c = true) (b : Bool) (cs : Str) :
    collapseGo b (c :: cs) =
      (if b then collapseGo true cs else ' ' :: collapseGo true cs) := by
  cases b <;> simp [collapseGo, hs]

theorem collapseGo_cons_nonspace {c : Char} (hs : pyIsSpace c = false) (b : Bool) (cs : Str) :
    collapseGo b (c :: cs) = c :: collapseGo false cs := by
  cases b <;> simp [collapseGo, hs]

theorem collapseGo_append_nospace :
    ∀ (w z : Str), (∀ c ∈ w, pyIsSpace c = false) →
      collapseGo false (w ++ z) = w ++ collapseGo false z := by
  intro w
  induction w with
  | nil => intro z _; rfl
  | cons c cs ih =>
    intro z hw
    have hc : pyIsSpace c = false := hw c (by simp)
    rw [List.cons_append, collapseGo_cons_nonspace hc,
      ih z (fun d hd => hw d (by simp [hd])), List.cons_append]

theorem hasRun4_collapseGo :
    ∀ (s : Str),
      (∀ k, hasRun4 k s = false → hasRun4 k (collapseGo false s) = false) ∧
      (hasRun4 0 s = false → hasRun4 0 (collapseGo true s) = false) := by
  intro s
  induction s with
  | nil => exact ⟨fun k h => h, fun h => h⟩
  | cons c cs ih =>
    rcases Bool.eq_false_or_eq_true (pyIsSpace c) with hs | hs
    · have hd : pyIsDigit c = false := space_not_digit c hs
      constructor
      · intro k h
        rw [hasRun4_sep hd] at h
        rw [collapseGo_cons_space hs]
        simp only [Bool.false_eq_true, if_false]
        rw [hasRun4_sep (by decide : pyIsDigit ' ' = false)]
        exact ih.2 h
      · intro h
        rw [hasRun4_sep hd] at h
        rw [collapseGo_cons_space hs]
        simp only [if_true]
        exact ih.2 h
    · have main : ∀ k, hasRun4 k (c :: cs) = false →
          hasRun4 k (collapseGo false (c :: cs)) = false := by
        intro k h
        rw [collapseGo_cons_nonspace hs]
        rcases Bool.eq_false_or_eq_true (pyIsDigit c) with hd | hd
        · simp only [hasRun4, hd, if_true, Bool.or_eq_false_iff] at h ⊢
          exact ⟨h.1, ih.1 (k + 1) h.2⟩
        · rw [hasRun4_sep hd] at h ⊢
          exact ih.1 0 h
      refine ⟨main, ?_⟩
      intro h
      rw [collapseGo_cons_nonspace hs, ← collapseGo_cons_nonspace hs false]
      exact main 0 h

theorem mem_collapseGo :
    ∀ (s : Str) (b : Bool) (c : Char), c ∈ collapseGo b s → c = ' ' ∨ c ∈ s := by
  intro s
  induction s with
  | nil => intro b c hc; cases hc
  | cons d cs ih =>
    intro b c hc
    rcases Bool.eq_false_or_eq_true (pyIsSpace d) with hs | hs
    · rw [collapseGo_cons_space hs] at hc
      split at hc
      · rcases ih true c hc with h | h
        · exact Or.inl h
        · exact Or.inr (by simp [h])
      · rcases List.mem_cons.mp hc with h | h
        · exact Or.inl h
        · rcases ih true c h with h2 | h2
          · exact Or.inl h2
          · exact Or.inr (by simp [h2])
    · rw [collapseGo_cons_nonspace hs] at hc
      rcases List.mem_cons.mp hc with h | h
      · subst h; exact Or.inr (by simp)
      · rcases ih false c h with h2 | h2
        · exact Or.inl h2
        · exact Or.inr (by simp [h2])

/-! Facts about the whitespace splitter `splitGo`. -/

theorem splitGo_cons_space {c : Char} (hs : pyIsSpace c = true) (acc cs : Str) :
    splitGo acc (c :: cs) =
      (if acc.isEmpty then splitGo [] cs else acc.reverse :: splitGo [] cs) := by
  simp [splitGo, hs]

theorem splitGo_cons_nonspace {c : Char} (hs : pyIsSpace c = false) (acc cs : Str) :
    splitGo acc (c :: cs) = splitGo (c :: acc) cs := by
  simp [splitGo, hs]

theorem splitGo_words :
    ∀ (s acc : Str), (∀ c ∈ acc, pyIsSpace c = false) →
      ∀ w ∈ splitGo acc s, w ≠ [] ∧ ∀ c ∈ w, pyIsSpace c = false := by
  intro s
  induction s with
  | nil =>
    intro acc hacc w hw
    simp only [splitGo] at hw
    split at hw
    · cases hw
    · rcases List.mem_singleton.mp hw with h
      subst h
      constructor
      · intro hrev
        rename_i hne
        rw [List.isEmpty_iff] at hne
        exact hne (by simpa using hrev)
      · intro c hc
        exact hacc c (List.mem_reverse.mp hc)
  | cons d cs ih =>
    intro acc hacc w hw
    rcases Bool.eq_false_or_eq_true (pyIsSpace d) with hs | hs
    · rw [splitGo_cons_space hs] at hw
      split at hw
      · exact ih [] (by intro e he; cases he) w hw
      · rcases List.mem_cons.mp hw with h | h
        · subst h
          rename_i hne
          rw [List.isEmpty_iff] at hne
          refine ⟨by simpa using hne, ?_⟩
          intro c hc
          exact hacc c (List.mem_reverse.mp hc)
        · exact ih [] (by intro e he; cases he) w h
    · rw [splitGo_cons_nonspace hs] at hw
      exact ih (d :: acc) (by
        intro e he
        rcases List.mem_cons.mp he with h | h
        · subst h; exact hs
        · exact hacc e h) w hw

theorem mem_splitGo :
    ∀ (s acc : Str) (w : Str), w ∈ splitGo acc s → ∀ c ∈ w, c ∈ acc ∨ c ∈ s := by
  intro s
  induction s with
  | nil =>
    intro acc w hw c hc
    simp only [splitGo] at hw
    split at hw
    · cases hw
    · rcases List.mem_singleton.mp hw with h
      subst h
      exact Or.inl (List.mem_reverse.mp hc)
  | cons d cs ih =>
    intro acc w hw c hc
    rcases Bool.eq_false_or_eq_true (pyIsSpace d) with hs | hs
    · rw [splitGo_cons_space hs] at hw
      split at hw
      · rcases ih [] w hw c hc with h | h
        · cases h
        · exact Or.inr (by simp [h])
      · rcases List.mem_cons.mp hw with h | h
        · subst h
          exact Or.inl (List.mem_reverse.mp hc)
        · rcases ih [] w h c hc with h2 | h2
          · cases h2
          · exact Or.inr (by simp [h2])
    · rw [splitGo_cons_nonspace hs] at hw
      rcases ih (d :: acc) w hw c hc with h | h
      · rcases List.mem_cons.mp h with h2 | h2
        · subst h2; exact Or.inr (by simp)
        · exact Or.inl h2
      · exact Or.inr (by simp [h])

theorem hasRun4_splitGo :
    ∀ (s acc : Str), hasRun4 0 (acc.reverse ++ s) = false →
      ∀ w ∈ splitGo acc s, hasRun4 0 w = false := by
  intro s
  induction s with
  | nil =>
    intro acc hacc w hw
    simp only [splitGo] at hw
    split at hw
    · cases hw
    · rcases List.mem_singleton.mp hw with h
      subst h
      exact hasRun4_append_left hacc
  | cons d cs ih =>
    intro acc hacc w hw
    rcases Bool.eq_false_or_eq_true (pyIsSpace d) with hs | hs
    · have hd : pyIsDigit d = false := space_not_digit d hs
      have hcs : hasRun4 0 cs = false := by
        have h2 := hasRun4_append_right (a := acc.reverse) (b := d :: cs) hacc
        rw [hasRun4_sep hd] at h2
        exact h2
      rw [splitGo_cons_space hs] at hw
      split at hw
      · exact ih [] (by simpa using hcs) w hw
      · rcases List.mem_cons.mp hw with h | h
        · subst h
          exact hasRun4_append_left hacc
        · exact ih [] (by simpa using hcs) w h
    · rw [splitGo_cons_nonspace hs] at hw
      refine ih (d :: acc) ?_ w hw
      rw [List.reverse_cons, List.append_assoc]
      simpa using hacc

theorem splitGo_append_nospace :
    ∀ (w : Str) (acc z : Str), (∀ c ∈ w, pyIsSpace c = false) →
      splitGo acc (w ++ z) = splitGo (w.reverse ++ acc) z := by
  intro w
  induction w with
  | nil => intro acc z _; simp
  | cons c cs ih =>
    intro acc z hw
    have hc : pyIsSpace c = false := hw c (by simp)
    rw [List.cons_append, splitGo_cons_nonspace hc,
      ih (c :: acc) z (fun d hd => hw d (by simp [hd]))]
    congr 1
    simp

theorem splitWs_joinSp :
    ∀ (ws : List Str), (∀ w ∈ ws, w ≠ [] ∧ ∀ c ∈ w, pyIsSpace c = false) →
      splitWs (joinSp ws) = ws := by
  intro ws
  induction ws with
  | nil => intro _; rfl
  | cons w ws ih =>
    intro h
    obtain ⟨hne, hnospace⟩ := h w (by simp)
    cases ws with
    | nil =>
      show splitGo [] (joinSp [w]) = [w]
      have : joinSp [w] = w ++ [] := by simp [joinSp]
      rw [this, splitGo_append_nospace w [] [] hnospace]
      simp only [splitGo, List.append_nil]
      rw [if_neg (by simpa [List.isEmpty_iff] using hne)]
      simp
    | cons w2 rest =>
      show splitGo [] (joinSp (w :: w2 :: rest)) = w :: w2 :: rest
      rw [show joinSp (w :: w2 :: rest) = w ++ ' ' :: joinSp (w2 :: rest) from rfl,
        splitGo_append_nospace w [] _ hnospace, List.append_nil,
        splitGo_cons_space (by decide)]
      rw [if_neg (by simpa [List.isEmpty_iff] using hne)]
      rw [List.reverse_reverse]
      have := ih (fun u hu => h u (by simp [hu]))
      rw [show splitWs (joinSp (w2 :: rest)) = splitGo [] (joinSp (w2 :: rest)) from rfl] at this
      rw [this]

theorem collapseGo_false_space {c : Char} (hs : pyIsSpace c = true) (cs : Str) :
    collapseGo false (c :: cs) = ' ' :: collapseGo true cs := by
  simp [collapseGo, hs]

theorem joinSp_cons (w : Str) (ws : List Str) (h : ws ≠ []) :
    joinSp (w :: ws) = w ++ ' ' :: joinSp ws := by
  cases ws with
  | nil => exact absurd rfl h
  | cons a l => rfl

theorem joinSp_expose_head (e : Char) (w2t : Str) (rest : List Str) :
    ∃ tl, joinSp ((e :: w2t) :: rest) = e :: tl := by
  cases rest with
  | nil => exact ⟨w2t, rfl⟩
  | cons a l =>
    refine ⟨w2t ++ ' ' :: joinSp (a :: l), ?_⟩
    rw [joinSp_cons _ _ (by simp), List.cons_append]

theorem collapseWs_joinSp :
    ∀ (ws : List Str), (∀ w ∈ ws, w ≠ [] ∧ ∀ c ∈ w, pyIsSpace c = false) →
      collapseWs (joinSp ws) = joinSp ws := by
  intro ws
  induction ws with
  | nil => intro _; rfl
  | cons w ws ih =>
    intro h
    obtain ⟨hne, hnospace⟩ := h w (by simp)
    cases ws with
    | nil =>
      show collapseGo false (joinSp [w]) = joinSp [w]
      have h2 := collapseGo_append_nospace w [] hnospace
      have h3 : collapseGo false ([] : Str) = [] := rfl
      have h2' : collapseGo false w = w := by simpa [h3] using h2
      exact h2'
    | cons w2 rest =>
      obtain ⟨hne2, hnospace2⟩ := h w2 (by simp)
      have hih := ih (fun u hu => h u (by simp [hu]))
      show collapseGo false (joinSp (w :: w2 :: rest)) = joinSp (w :: w2 :: rest)
      rw [joinSp_cons _ _ (by simp), collapseGo_append_nospace w _ hnospace,
        collapseGo_false_space (by decide)]
      rcases w2 with _ | ⟨e, w2t⟩
      · exact absurd rfl hne2
      · have hehead : pyIsSpace e = false := hnospace2 e (by simp)
        obtain ⟨tl, htl⟩ := joinSp_expose_head e w2t rest
        have hih2 : collapseGo false (e :: tl) = e :: tl := by
          rw [← htl]; exact hih
        rw [collapseGo_cons_nonspace hehead] at hih2
        have htail : collapseGo false tl = tl := by simpa using hih2
        rw [htl, collapseGo_cons_nonspace hehead, htail]

theorem rstrip_eq_self_of_rev_head {y : Str} {d : Char} {r : Str}
    (hrev : y.reverse = d :: r) (hd : pyIsSpace d = false) : rstrip y = y := by
  unfold rstrip
  rw [hrev, List.dropWhile_cons, hd]
  simp only [Bool.false_eq_true, if_false]
  rw [← hrev, List.reverse_reverse]

theorem rev_joinSp_concat :
    ∀ (ws : List Str) (w : Str), ∃ t, (joinSp (ws ++ [w])).reverse = w.reverse ++ t := by
  intro ws
  induction ws with
  | nil => intro w; exact ⟨[], by simp [joinSp]⟩
  | cons u ws ih =>
    intro w
    obtain ⟨t, ht⟩ := ih w
    refine ⟨t ++ ' ' :: u.reverse, ?_⟩
    rw [List.cons_append, joinSp_cons _ _ (by simp)]
    rw [List.reverse_append, List.reverse_cons, ht]
    simp [List.append_assoc]

theorem pyStrip_joinSp (ws : List Str) (hne : ws ≠ [])
    (h : ∀ w ∈ ws, w ≠ [] ∧ ∀ c ∈ w, pyIsSpace c = false) :
    pyStrip (joinSp ws) = joinSp ws := by
  obtain ⟨w1, ws', rfl⟩ := List.exists_cons_of_ne_nil hne
  obtain ⟨hne1, hnospace1⟩ := h w1 (by simp)
  obtain ⟨e, w1t, rfl⟩ := List.exists_cons_of_ne_nil hne1
  have hJ : joinSp ((e :: w1t) :: ws') = e :: (w1t ++ (match ws' with
      | [] => [] | _ :: _ => ' ' :: joinSp ws')) := by
    cases ws' <;> simp [joinSp]
  have hlstrip : lstrip (joinSp ((e :: w1t) :: ws')) = joinSp ((e :: w1t) :: ws') := by
    rw [hJ]
    unfold lstrip
    rw [List.dropWhile_cons, hnospace1 e (by simp)]
    simp
  unfold pyStrip
  rw [hlstrip]
  have hlast := List.dropLast_append_getLast (l := (e :: w1t) :: ws') (by simp)
  set wl := ((e :: w1t) :: ws').getLast (by simp) with hwl
  obtain ⟨hlne, hlnospace⟩ := h wl (by rw [hwl]; exact List.getLast_mem _)
  obtain ⟨t, ht⟩ := rev_joinSp_concat (((e :: w1t) :: ws').dropLast) wl
  rw [hlast] at ht
  rcases hrev : wl.reverse with _ | ⟨d, rr⟩
  · exact absurd (by simpa using hrev) hlne
  · have hd : pyIsSpace d = false := by
      refine hlnospace d ?_
      have : d ∈ wl.reverse := by rw [hrev]; simp
      exact List.mem_reverse.mp this
    refine rstrip_eq_self_of_rev_head (d := d) (r := rr ++ t) ?_ hd
    rw [ht, hrev]
    simp

theorem mem_joinSp :
    ∀ (ws : List Str) (c : Char), c ∈ joinSp ws → c = ' ' ∨ ∃ w ∈ ws, c ∈ w := by
  intro ws
  induction ws with
  | nil => intro c hc; cases hc
  | cons w ws ih =>
    intro c hc
    cases ws with
    | nil =>
      exact Or.inr ⟨w, by simp, by simpa [joinSp] using hc⟩
    | cons w2 rest =>
      rw [show joinSp (w :: w2 :: rest) = w ++ ' ' :: joinSp (w2 :: rest) from rfl] at hc
      rcases List.mem_append.mp hc with h | h
      · exact Or.inr ⟨w, by simp, h⟩
      · rcases List.mem_cons.mp h with h2 | h2
        · exact Or.inl h2
        · rcases ih c h2 with h3 | ⟨u, hu, hcu⟩
          · exact Or.inl h3
          · exact Or.inr ⟨u, by simp [hu], hcu⟩

theorem hasRun4_sepjoin :
    ∀ (w : Str) (k : Nat) (r : Str), hasRun4 k w = false → hasRun4 0 r = false →
      hasRun4 k (w ++ ' ' :: r) = false := by
  intro w
  induction w with
  | nil =>
    intro k r _ h2
    rw [List.nil_append, hasRun4_sep (by decide)]
    exact h2
  | cons c cs ih =>
    intro k r h1 h2
    rcases Bool.eq_false_or_eq_true (pyIsDigit c) with hd | hd
    · simp only [hasRun4, hd, if_true, Bool.or_eq_false_iff] at h1
      rw [List.cons_append]
      simp only [hasRun4, hd, if_true, Bool.or_eq_false_iff]
      exact ⟨h1.1, ih (k + 1) r h1.2 h2⟩
    · rw [hasRun4_sep hd] at h1
      rw [List.cons_append, hasRun4_sep hd]
      exact ih 0 r h1 h2

theorem hasRun4_joinSp :
    ∀ (ws : List Str), (∀ w ∈ ws, hasRun4 0 w = false) →
      hasRun4 0 (joinSp ws) = false := by
  intro ws
  induction ws with
  | nil => intro _; rfl
  | cons w ws ih =>
    intro h
    cases ws with
    | nil => simpa [joinSp] using h w (by simp)
    | cons w2 rest =>
      rw [show joinSp (w :: w2 :: rest) = w ++ ' ' :: joinSp (w2 :: rest) from rfl]
      exact hasRun4_sepjoin w 0 _ (h w (by simp)) (ih (fun u hu => h u (by simp [hu])))

theorem lstrip_decomp (s : Str) : ∃ a, s = a ++ lstrip s :=
  ⟨s.takeWhile (fun c => pyIsSpace c),
    (List.takeWhile_append_dropWhile (p := fun c => pyIsSpace c) (l := s)).symm⟩

theorem rstrip_decomp (s : Str) : ∃ b, s = rstrip s ++ b := by
  refine ⟨(s.reverse.takeWhile (fun c => pyIsSpace c)).reverse, ?_⟩
  conv_lhs => rw [← List.reverse_reverse s,
    ← List.takeWhile_append_dropWhile (p := fun c => pyIsSpace c) (l := s.reverse)]
  rw [List.reverse_append]
  rfl

theorem hasRun4_pyStrip (s : Str) (h : hasRun4 0 s = false) :
    hasRun4 0 (pyStrip s) = false := by
  obtain ⟨a, ha⟩ := lstrip_decomp s
  have h1 : hasRun4 0 (lstrip s) = false := by
    rw [ha] at h
    exact hasRun4_append_right h
  obtain ⟨b, hb⟩ := rstrip_decomp (lstrip s)
  rw [hb] at h1
  exact hasRun4_append_left h1

theorem mem_pyStrip (s : Str) (c : Char) (hc : c ∈ pyStrip s) : c ∈ s := by
  obtain ⟨a, ha⟩ := lstrip_decomp s
  obtain ⟨b, hb⟩ := rstrip_decomp (lstrip s)
  rw [ha, hb]
  simp only [List.mem_append]
  exact Or.inr (Or.inl hc)

/-- The token list that `_extract_merchant` keeps (first three whitespace
tokens after uppercasing, digit-run stripping, and whitespace cleanup). -/
def tokensOf (s : Str) : List Str :=
  (splitWs (pyStrip (collapseWs (sub4Digits (pyUpper s))))).take 3

theorem extractMerchant_eq (s : Str) :
    extractMerchant s =
      if (tokensOf s).isEmpty then s.take 30 else joinSp (tokensOf s) := rfl

theorem tokensOf_facts (s : Str) :
    ∀ w ∈ tokensOf s, w ≠ [] ∧ (∀ c ∈ w, pyIsSpace c = false) ∧
      (∀ c ∈ w, charUpper c = c) ∧ hasRun4 0 w = false := by
  intro w hw
  have hw' : w ∈ splitWs (pyStrip (collapseWs (sub4Digits (pyUpper s)))) :=
    List.take_subset 3 _ hw
  have hbase := splitGo_words (pyStrip (collapseWs (sub4Digits (pyUpper s)))) []
    (by intro c hc; cases hc) w hw'
  refine ⟨hbase.1, hbase.2, ?_, ?_⟩
  · intro c hc
    have hcmem := mem_splitGo (pyStrip (collapseWs (sub4Digits (pyUpper s)))) [] w hw' c hc
    rcases hcmem with h | h
    · cases h
    · have h2 := mem_pyStrip _ c h
      rcases mem_collapseGo _ false c h2 with h3 | h3
      · subst h3; decide
      · rcases mem_sub4Go _ [] c h3 with h4 | h4
        · cases h4
        · obtain ⟨d, _, rfl⟩ := List.mem_map.mp h4
          exact charUpper_idem d
  · have hrun : hasRun4 0 (pyStrip (collapseWs (sub4Digits (pyUpper s)))) = false := by
      refine hasRun4_pyStrip _ ?_
      refine (hasRun4_collapseGo _).1 0 ?_
      exact hasRun4_sub4Go (pyUpper s) [] (by intro d hd; cases hd)
    exact hasRun4_splitGo _ [] (by simpa using hrun) w hw'

theorem extractMerchant_fix (ws : List Str) (h1 : ws ≠ [])
    (h2 : ∀ w ∈ ws, w ≠ [] ∧ (∀ c ∈ w, pyIsSpace c = false) ∧
      (∀ c ∈ w, charUpper c = c) ∧ hasRun4 0 w = false)
    (h3 : ws.length ≤ 3) :
    extractMerchant (joinSp ws) = joinSp ws := by
  have hwords : ∀ w ∈ ws, w ≠ [] ∧ ∀ c ∈ w, pyIsSpace c = false :=
    fun w hw => ⟨(h2 w hw).1, (h2 w hw).2.1⟩
  have hupper : pyUpper (joinSp ws) = joinSp ws := by
    refine pyUpper_eq_self _ ?_
    intro c hc
    rcases mem_joinSp ws c hc with h | ⟨w, hw, hcw⟩
    · subst h; decide
    · exact (h2 w hw).2.2.1 c hcw
  have hrun : hasRun4 0 (joinSp ws) = false :=
    hasRun4_joinSp ws (fun w hw => (h2 w hw).2.2.2)
  have hsub : sub4Digits (joinSp ws) = joinSp ws := by
    unfold sub4Digits
    have := sub4Go_eq_of_noRun (joinSp ws) [] (by simp) (by simpa using hrun)
    simpa using this
  have hcol : collapseWs (joinSp ws) = joinSp ws := collapseWs_joinSp ws hwords
  have hstrip : pyStrip (joinSp ws) = joinSp ws := pyStrip_joinSp ws h1 hwords
  have hsplit : splitWs (joinSp ws) = ws := splitWs_joinSp ws hwords
  rw [extractMerchant_eq]
  unfold tokensOf
  rw [hupper, hsub, hcol, hstrip, hsplit, List.take_of_length_le h3,
    if_neg (by simpa [List.isEmpty_iff] using h1)]

/-- C8 (amended): merchant normalization is idempotent on every description
whose normalization keeps at least one token (the main path), and on every
description of length at most 30 (where the 30-character fallback is the
identity).  The unrestricted claim fails when the fallback truncates a digit
run: see the counterexample below. -/
theorem c8_extractMerchant_idem (s : Str)
    (h : tokensOf s ≠ [] ∨ s.length ≤ 30) :
    extractMerchant (extractMerchant s) = extractMerchant s := by
  by_cases ht : (tokensOf s).isEmpty
  · have htok : tokensOf s = [] := by simpa [List.isEmpty_iff] using ht
    have hlen : s.length ≤ 30 := by
      rcases h with h | h
      · exact absurd htok h
      · exact h
    have hfix : extractMerchant s = s := by
      rw [extractMerchant_eq, if_pos ht, List.take_of_length_le hlen]
    rw [hfix]
    exact hfix
  · have hne : tokensOf s ≠ [] := by simpa [List.isEmpty_iff] using ht
    rw [extractMerchant_eq s, if_neg ht]
    exact extractMerchant_fix (tokensOf s) hne (tokensOf_facts s)
      (by simp [tokensOf] )

/-- Witness for C8: a concrete description on the main path. -/
theorem c8_witness :
    (tokensOf (r"Netflix 1234 Monthly Sub").toList ≠ [] ∨
        (r"Netflix 1234 Monthly Sub").toList.length ≤ 30) ∧
      extractMerchant (extractMerchant (r"Netflix 1234 Monthly Sub").toList) =
        extractMerchant (r"Netflix 1234 Monthly Sub").toList :=
  ⟨Or.inl (by decide),
    c8_extractMerchant_idem (r"Netflix 1234 Monthly Sub").toList (Or.inl (by decide))⟩

/-- Counterexample for C8 as originally stated: on the 31-character input of
27 spaces followed by `1234`, normalization falls back to the first 30
characters, which cuts the digit run to `123`; a second application then
returns `123`, so the normalizer is not idempotent. -/
theorem c8_counterexample :
    extractMerchant (extractMerchant (List.replicate 27 ' ' ++ (r"1234").toList)) ≠
      extractMerchant (List.replicate 27 ' ' ++ (r"1234").toList) := by
  decide

/-! Embedding of bank_parser.py: amounts, tables, CSV rows, free text.
`dateutil`-based date parsing (`_parse_date`) is an external library call and
is passed in as a total function `parseDate : Str → Int` (it never raises:
unparseable dates fall back to "now"); dates themselves are day numbers. -/

/-- Convert a Lean string literal to the `Str` model. -/
def lit (s : String) : Str := s.toList

/-- ASCII model of `str.lower()` on one character (used for header matching). -/
def charLower (c : Char) : Char :=
  if 65 ≤ c.toNat ∧ c.toNat ≤ 90 then Char.ofNat (c.toNat + 32) else c

/-- Model of `str.lower()`. -/
def pyLower (s : Str) : Str := s.map charLower

/-- Model of `str.replace(old, "")` for a single character `old`. -/
def removeChar (x : Char) (s : Str) : Str := s.filter (fun c => c ≠ x)

/-- Model of `str.replace(old, new)` for single characters. -/
def mapChar (x y : Char) (s : Str) : Str := s.map (fun c => if c = x then y else c)

/-- Numeric value of a digit string (most significant digit first). -/
def digitsVal (ds : Str) : Nat := ds.foldl (fun acc c => acc * 10 + (c.toNat - 48)) 0

/-- Exponent tail of a Python float literal (after the `e`/`E`). -/
def pyFloatExpTail (m : ℚ) (r : Str) : Option ℚ :=
  let p : ℤ × Str :=
    match r with
    | '+' :: r2 => (1, r2)
    | '-' :: r2 => (-1, r2)
    | r2 => (1, r2)
  let ed := p.2.takeWhile (fun c => pyIsDigit c)
  let rest := p.2.dropWhile (fun c => pyIsDigit c)
  if ed = [] ∨ rest ≠ [] then none
  else some (m * (10 : ℚ) ^ (p.1 * (digitsVal ed : ℤ)))

/-- Optional exponent of a Python float literal. -/
def pyFloatExp (m : ℚ) : Str → Option ℚ
  | [] => some m
  | 'e' :: r => pyFloatExpTail m r
  | 'E' :: r => pyFloatExpTail m r
  | _ => none

/-- Mantissa part of a Python float literal after the sign: digits, optional
fractional part, then the optional exponent. -/
def pyFloatTail (sgn : ℚ) (ip r1 : Str) : Option ℚ :=
  match r1 with
  | '.' :: r2 =>
    if ip = [] ∧ r2.takeWhile (fun c => pyIsDigit c) = [] then none
    else pyFloatExp (sgn * ((digitsVal ip : ℚ) +
        (digitsVal (r2.takeWhile (fun c => pyIsDigit c)) : ℚ) /
          10 ^ (r2.takeWhile (fun c => pyIsDigit c)).length))
      (r2.dropWhile (fun c => pyIsDigit c))
  | r1' =>
    if ip = [] then none
    else pyFloatExp (sgn * (digitsVal ip : ℚ)) r1'

/-- Float literal after the optional sign was consumed. -/
def pyFloatSigned (sgn : ℚ) (t1 : Str) : Option ℚ :=
  pyFloatTail sgn (t1.takeWhile (fun c => pyIsDigit c)) (t1.dropWhile (fun c => pyIsDigit c))

/-- Model of Python `float(s)` on decimal literals: optional surrounding
whitespace, optional sign, digits with an optional fractional part, optional
exponent; everything else raises `ValueError` (`none`).  (The special forms
`inf`/`nan` and underscore separators are outside the scope of this model.) -/
def pyFloat (s : Str) : Option ℚ :=
  pyFloatSigned (if (pyStrip s).head? = some '-' then -1 else 1)
    (if (pyStrip s).head? = some '-' ∨ (pyStrip s).head? = some '+' then
      (pyStrip s).tail
    else pyStrip s)

/-- BankStatementParser._parse_amount on a string argument: strip `$` signs
and commas, strip whitespace, parse as float, and fall back to `0.0` on
`ValueError`.  (The `isinstance` branch only concerns non-string callers.) -/
def parseAmount (amount_str : Str) : ℚ :=
  let cleaned := pyStrip (removeChar ',' (removeChar '$' amount_str))
  match pyFloat cleaned with
  | some q => q
  | none => 0

/-- A transaction record as produced by the statement parser.  The `date` is
optional because `_parse_table` emits rows even when no date column is present. -/
structure PTxn where
  date : Option Int
  description : Str
  amount : ℚ
  merchant : Str
deriving DecidableEq

/-- Header text of a table cell: `str(h).lower() if h else ""`. -/
def headerOf (h : Option Str) : Str :=
  match h with
  | none => []
  | some s => if s = [] then [] else pyLower s

/-- Accumulated optional fields of one table row (date, description, amount). -/
def tableRowStep (parseDate : Str → Int) (row : List (Option Str))
    (acc : Option Int × Option Str × Option ℚ) (ih : Nat × Str) :
    Option Int × Option Str × Option ℚ :=
  match row.get? ih.1 with
  | some (some v) =>
    if v = [] then acc
    else
      let value := pyStrip v
      if pyContains (lit (r"date")) ih.2 then (some (parseDate value), acc.2.1, acc.2.2)
      else if [lit (r"description"), lit (r"memo"), lit (r"merchant"),
          lit (r"details")].any (fun k => pyContains k ih.2) then
        (acc.1, some value, acc.2.2)
      else if [lit (r"amount"), lit (r"debit"), lit (r"credit")].any
          (fun k => pyContains k ih.2) then
        (acc.1, acc.2.1, some (parseAmount value))
      else acc
  | _ => acc

/-- One row of `_parse_table`: rows with fewer than 2 cells are skipped; a row
is emitted only when a description was resolved and the resolved amount is
non-zero. -/
def parseTableRow (parseDate : Str → Int) (headers : List Str)
    (row : List (Option Str)) : Option PTxn :=
  if row.length < 2 then none
  else
    let fields := headers.enum.foldl (tableRowStep parseDate row) (none, none, none)
    match fields.2.1 with
    | some d =>
      if fields.2.2.getD 0 ≠ 0 then
        some { date := fields.1, description := d, amount := fields.2.2.getD 0,
               merchant := extractMerchant d }
      else none
    | none => none

/-- BankStatementParser._parse_table. -/
def parseTable (parseDate : Str → Int) (table : List (List (Option Str))) :
    List PTxn :=
  match table with
  | [] => []
  | [_] => []
  | headerRow :: rows => rows.filterMap (parseTableRow parseDate (headerRow.map headerOf))

/-- One already-column-projected CSV row: the selected date cell (when a date
column exists), the description text, and the amount text.  The pandas
column-keyword selection happens outside this model; `parse_csv` only ever
sees these three resolved strings per row. -/
def parseCsvRow (parseDate : Str → Int) (now : Int)
    (r : Option Str × Str × Str) : Option PTxn :=
  let date : Int :=
    match r.1 with
    | some ds => if ds = [] then now else parseDate ds
    | none => now
  let amount := parseAmount r.2.2
  if amount ≠ 0 then
    some { date := some date, description := pyStrip r.2.1, amount := |amount|,
           merchant := extractMerchant r.2.1 }
  else none

/-- BankStatementParser.parse_csv (row loop). -/
def parseCsv (parseDate : Str → Int) (now : Int)
    (rows : List (Option Str × Str × Str)) : List PTxn :=
  rows.filterMap (parseCsvRow parseDate now)

/-! Free-text extraction (`_parse_text`).  The date-pattern regex search is an
injected function `findDate : Str → Option Str` (returning the matched date
substring, when any); the French month table and its longest-first rewrite,
the skip-keyword filter, the amount-pattern search, and the emission logic are
embedded concretely. -/

/-- Attempt of the amount pattern at the current position:
optional euro sign, whitespace, digits, a period or comma, digits. -/
def matchAmountAt (s : Str) : Option Str :=
  let p : Str × Str :=
    match s with
    | '€' :: r => (['€'], r)
    | r => ([], r)
  let ws := p.2.takeWhile (fun c => pyIsSpace c)
  let r1 := p.2.dropWhile (fun c => pyIsSpace c)
  let d1 := r1.takeWhile (fun c => pyIsDigit c)
  let r2 := r1.dropWhile (fun c => pyIsDigit c)
  if d1 = [] then none
  else
    match r2 with
    | c :: r3 =>
      if c = '.' ∨ c = ',' then
        let d2 := r3.takeWhile (fun c => pyIsDigit c)
        if d2 = [] then none else some (p.1 ++ ws ++ d1 ++ c :: d2)
      else none
    | [] => none

/-- Leftmost match of the amount pattern (`re.search`). -/
def findAmount : Str → Option Str
  | [] => none
  | c :: cs =>
    match matchAmountAt (c :: cs) with
    | some m => some m
    | none => findAmount cs

/-- Skip keywords for boilerplate lines in `_parse_text`. -/
def skipKeywords : List Str :=
  [lit (r"Relevé"), lit (r"Généré le"), lit (r"Transactions du compte"),
   lit (r"Date"), lit (r"Description"), lit (r"Argent sortant"),
   lit (r"Argent entrant"), lit (r"Solde"), lit (r"Résumé"),
   lit (r"COMPTE"), lit (r"TOTAL"), lit (r"Renvoyé"), lit (r"Page")]

/-- The French month abbreviation map, pre-sorted by descending length as the
code's stable `sorted(month_map.items(), key=lambda x: -len(x[0]))` yields. -/
def frMonths : List (Str × Str) :=
  [(lit (r"janv"), lit (r"january")), (lit (r"févr"), lit (r"february")),
   (lit (r"mars"), lit (r"march")), (lit (r"juin"), lit (r"june")),
   (lit (r"juil"), lit (r"july")), (lit (r"août"), lit (r"august")),
   (lit (r"sept"), lit (r"september")),
   (lit (r"fév"), lit (r"february")), (lit (r"avr"), lit (r"april")),
   (lit (r"mai"), lit (r"may")), (lit (r"oct"), lit (r"october")),
   (lit (r"nov"), lit (r"november")), (lit (r"déc"), lit (r"december"))]

/-- Fuel-based model of `str.replace(old, new)` (all occurrences, left to
right); the fuel is the string length, enough since `old` is nonempty. -/
def replaceAllGo (old new : Str) : Nat → Str → Str
  | 0, s => s
  | _ + 1, [] => []
  | fuel + 1, c :: cs =>
    if old.isPrefixOf (c :: cs) then new ++ replaceAllGo old new fuel ((c :: cs).drop old.length)
    else c :: replaceAllGo old new fuel cs

/-- Model of `str.replace(old, new)`. -/
def replaceAll (old new s : Str) : Str := replaceAllGo old new s.length s

/-- The French-month rewrite applied to a matched date string: the first
month abbreviation (longest first) contained in the lowercased string is
replaced by its English name before the generic date parse. -/
def applyMonth (parseDate : Str → Int) (ds : Str) : Int :=
  match frMonths.find? (fun p => pyContains p.1 (pyLower ds)) with
  | some p => parseDate (replaceAll p.1 p.2 (pyLower ds))
  | none => parseDate ds

/-- Model of `line.split("€")[0]`. -/
def takeUntilEuro (s : Str) : Str := s.takeWhile (fun c => c ≠ '€')

/-- Model of `re.sub(r"\s+\d+[.,]\d+\s*$", "", desc)`: strip one trailing
whitespace-amount pattern, recognized from the reversed string. -/
def stripTrailingAmount (s : Str) : Str :=
  let r := s.reverse
  let r1 := r.dropWhile (fun c => pyIsSpace c)
  let d2 := r1.takeWhile (fun c => pyIsDigit c)
  let r2 := r1.dropWhile (fun c => pyIsDigit c)
  match r2 with
  | c :: r3 =>
    if (c = '.' ∨ c = ',') ∧ d2 ≠ [] then
      let d1 := r3.takeWhile (fun c => pyIsDigit c)
      let r4 := r3.dropWhile (fun c => pyIsDigit c)
      let ws2 := r4.takeWhile (fun c => pyIsSpace c)
      if d1 ≠ [] ∧ ws2 ≠ [] then (r4.dropWhile (fun c => pyIsSpace c)).reverse else s
    else s
  | [] => s

/-- The running current date after one line of `_parse_text`. -/
def textNewDate (parseDate : Str → Int) (findDate : Str → Option Str)
    (cur : Option Int) (rawline : Str) : Option Int :=
  let line := pyStrip rawline
  if line = [] then cur
  else if skipKeywords.any (fun kw => pyContains kw line) then cur
  else
    match findDate line with
    | some ds => some (applyMonth parseDate ds)
    | none => cur

/-- The records one line of `_parse_text` emits, given the current date after
this line's date update (zero or one record). -/
def textEmit (cur : Option Int) (rawline : Str) : List PTxn :=
  let line := pyStrip rawline
  if line = [] then []
  else if skipKeywords.any (fun kw => pyContains kw line) then []
  else
    match findAmount line, cur with
    | some m, some cd =>
      let amountStr := pyStrip (mapChar ',' '.' (removeChar '€' m))
      match pyFloat amountStr with
      | none => []
      | some q =>
        if (1 : ℚ) / 100 < |q| then
          let desc0 := if pyContains ['€'] line then pyStrip (takeUntilEuro line) else line
          let desc := pyStrip (stripTrailingAmount desc0)
          [{ date := some cd, description := desc, amount := |q|,
             merchant := extractMerchant desc }]
        else []
    | _, _ => []

/-- Model of `text.split("\n")` (keeps empty pieces). -/
def splitNlGo (acc : Str) : Str → List Str
  | [] => [acc.reverse]
  | c :: cs => if c = '\n' then acc.reverse :: splitNlGo [] cs else splitNlGo (c :: acc) cs

/-- BankStatementParser._parse_text: line loop carrying the current date. -/
def parseText (parseDate : Str → Int) (findDate : Str → Option Str)
    (text : Str) : List PTxn :=
  ((splitNlGo [] text).foldl
    (fun st line =>
      let cd := textNewDate parseDate findDate st.1 line
      (cd, st.2 ++ textEmit cd line))
    ((none : Option Int), ([] : List PTxn))).2

/-! Claims C5 and C6: amount parsing and parser amount invariants. -/

theorem digit_not_space (c : Char) (h : pyIsDigit c = true) : pyIsSpace c = false := by
  simp only [pyIsDigit, Bool.and_eq_true, decide_eq_true_eq] at h
  simp only [pyIsSpace, Bool.or_eq_false_iff, Bool.and_eq_false_iff,
    decide_eq_false_iff_not]
  omega

theorem digit_ne_char {c x : Char} (h : pyIsDigit c = true) (hx : pyIsDigit x = false) :
    c ≠ x := by
  intro he
  subst he
  rw [h] at hx
  cases hx

theorem pyStrip_eq_self_of_nospace (s : Str) (h : ∀ c ∈ s, pyIsSpace c = false) :
    pyStrip s = s := by
  cases s with
  | nil => rfl
  | cons c cs =>
    have hl : lstrip (c :: cs) = c :: cs := by
      unfold lstrip
      rw [List.dropWhile_cons, h c (by simp)]
      simp
    unfold pyStrip
    rw [hl]
    rcases hrev : (c :: cs).reverse with _ | ⟨d, r⟩
    · exact absurd hrev (by simp)
    · refine rstrip_eq_self_of_rev_head hrev (h d ?_)
      have : d ∈ (c :: cs).reverse := by rw [hrev]; simp
      exact List.mem_reverse.mp this

unseal Rat.add Rat.mul Rat.sub Rat.inv in
/-- Counterexample for C5 as stated: the amount parser maps `"€ 12,50"` to
`0.0`, not to `12.50`: the euro sign is not stripped (only `$` is), so the
float parse fails and the `ValueError` fallback returns zero. -/
theorem c5_counterexample :
    parseAmount (lit (r"€ 12,50")) = 0 ∧ (0 : ℚ) ≠ 25 / 2 := by
  constructor
  · decide
  · norm_num

unseal Rat.add Rat.mul Rat.sub Rat.inv in
/-- C5 (amended): `_parse_amount` strips dollar signs and treats commas as
thousands separators (it deletes them); a digit string with an embedded comma
therefore parses as the concatenated digits (`"12,50"` → `1250.0`), and a
string with a euro sign fails the float parse and yields `0.0`. -/
theorem c5_parseAmount_amended :
    parseAmount (lit (r"€ 12,50")) = 0 ∧
    ∀ a b : Str, a ≠ [] → b ≠ [] →
      (∀ c ∈ a, pyIsDigit c = true) → (∀ c ∈ b, pyIsDigit c = true) →
      parseAmount (a ++ ',' :: b) = (digitsVal (a ++ b) : ℚ) := by
  constructor
  · decide
  · intro a b ha hb hda hdb
    have hdall : ∀ c ∈ a ++ b, pyIsDigit c = true := by
      intro c hc
      rcases List.mem_append.mp hc with h | h
      · exact hda c h
      · exact hdb c h
    have h1 : removeChar '$' (a ++ ',' :: b) = a ++ ',' :: b := by
      unfold removeChar
      rw [List.filter_eq_self]
      intro c hc
      simp only [List.mem_append, List.mem_cons] at hc
      rcases hc with h | h | h
      · simpa using digit_ne_char (hda c h) (by decide)
      · subst h; decide
      · simpa using digit_ne_char (hdb c h) (by decide)
    have h2 : removeChar ',' (a ++ ',' :: b) = a ++ b := by
      unfold removeChar
      rw [List.filter_append]
      rw [show List.filter (fun c => decide (c ≠ ',')) (',' :: b) =
        List.filter (fun c => decide (c ≠ ',')) b from by
          rw [List.filter_cons]; simp]
      rw [List.filter_eq_self.mpr
          (fun c hc => by simpa using digit_ne_char (hda c hc) (by decide)),
        List.filter_eq_self.mpr
          (fun c hc => by simpa using digit_ne_char (hdb c hc) (by decide))]
    have h3 : pyStrip (a ++ b) = a ++ b :=
      pyStrip_eq_self_of_nospace _ (fun c hc => digit_not_space c (hdall c hc))
    obtain ⟨c0, a', rfl⟩ := List.exists_cons_of_ne_nil ha
    have hc0 : pyIsDigit c0 = true := hda c0 (by simp)
    have hm : ¬ (some c0 = some '-') := by
      intro h
      exact digit_ne_char hc0 (by decide) (Option.some.inj h)
    have hmp : ¬ (some c0 = some '-' ∨ some c0 = some '+') := by
      rintro (h | h)
      · exact hm h
      · exact digit_ne_char hc0 (by decide) (Option.some.inj h)
    have htw : ((c0 :: a') ++ b).takeWhile (fun c => pyIsDigit c) = (c0 :: a') ++ b :=
      List.takeWhile_eq_self_iff.mpr hdall
    have hdw : ((c0 :: a') ++ b).dropWhile (fun c => pyIsDigit c) = [] :=
      List.dropWhile_eq_nil_iff.mpr hdall
    have hfl : pyFloat ((c0 :: a') ++ b) = some ((1 : ℚ) * (digitsVal ((c0 :: a') ++ b) : ℚ)) := by
      unfold pyFloat
      rw [h3]
      rw [show ((c0 :: a') ++ b).head? = some c0 from rfl]
      rw [if_neg hm, if_neg hmp]
      unfold pyFloatSigned
      rw [htw, hdw]
      rw [show pyFloatTail 1 ((c0 :: a') ++ b) [] =
        (if (c0 :: a') ++ b = [] then none
         else pyFloatExp (1 * (digitsVal ((c0 :: a') ++ b) : ℚ)) []) from rfl]
      rw [if_neg (by simp)]
      rfl
    have hpa : parseAmount ((c0 :: a') ++ ',' :: b) =
        (match pyFloat ((c0 :: a') ++ b) with | some q => q | none => 0) := by
      show (match pyFloat (pyStrip (removeChar ','
          (removeChar '$' ((c0 :: a') ++ ',' :: b)))) with
        | some q => q | none => 0) = _
      rw [h1, h2, h3]
    rw [hpa, hfl]
    exact one_mul _

unseal Rat.add Rat.mul Rat.sub Rat.inv in
/-- Counterexample for C6 as stated: `_parse_table` emits the signed parsed
amount without taking an absolute value, so a table row with amount `-5.00`
yields a record with the negative amount `-5`. -/
theorem c6_counterexample :
    (parseTable (fun _ => 0)
        [[some (lit (r"amount")), some (lit (r"description"))],
         [some (lit (r"-5.00")), some (lit (r"X"))]]).map (fun t => t.amount)
      = [-5] ∧ (-5 : ℚ) < 0 := by
  constructor
  · decide
  · norm_num

theorem textEmit_amount (cur : Option Int) (line : Str) (t : PTxn)
    (ht : t ∈ textEmit cur line) : (1 : ℚ) / 100 < t.amount := by
  simp only [textEmit] at ht
  split at ht
  · cases ht
  · split at ht
    · cases ht
    · split at ht
      · split at ht
        · cases ht
        · split at ht
          · rcases List.mem_singleton.mp ht with h
            subst h
            assumption
          · cases ht
      · cases ht

theorem parseText_foldl_amount (parseDate : Str → Int) (findDate : Str → Option Str) :
    ∀ (lines : List Str) (st : Option Int × List PTxn),
      (∀ t ∈ st.2, (1 : ℚ) / 100 < t.amount) →
      ∀ t ∈ (lines.foldl
        (fun st line =>
          let cd := textNewDate parseDate findDate st.1 line
          (cd, st.2 ++ textEmit cd line)) st).2,
        (1 : ℚ) / 100 < t.amount := by
  intro lines
  induction lines with
  | nil => intro st h t ht; exact h t ht
  | cons l ls ih =>
    intro st h t ht
    refine ih _ ?_ t ht
    intro u hu
    rcases List.mem_append.mp hu with h2 | h2
    · exact h u h2
    · exact textEmit_amount _ l u h2

/-- C6 (amended): on the CSV path every emitted record has a non-negative
amount and the amount is non-zero; on the free-text path every emitted amount
exceeds the 0.01 noise threshold (hence is positive); on the table path every
emitted amount is non-zero (zero rows are discarded) but its sign is
preserved, so it may be negative (see the counterexample). -/
theorem c6_amounts_amended :
    (∀ (parseDate : Str → Int) (now : Int) (rows : List (Option Str × Str × Str))
      (t : PTxn), t ∈ parseCsv parseDate now rows → 0 ≤ t.amount ∧ t.amount ≠ 0) ∧
    (∀ (parseDate : Str → Int) (findDate : Str → Option Str) (text : Str)
      (t : PTxn), t ∈ parseText parseDate findDate text → (1 : ℚ) / 100 < t.amount) ∧
    (∀ (parseDate : Str → Int) (table : List (List (Option Str)))
      (t : PTxn), t ∈ parseTable parseDate table → t.amount ≠ 0) := by
  refine ⟨?_, ?_, ?_⟩
  · intro parseDate now rows t ht
    obtain ⟨r, _, hr⟩ := List.mem_filterMap.mp ht
    simp only [parseCsvRow] at hr
    split at hr
    · rename_i hne
      have ht2 := Option.some.inj hr
      constructor
      · rw [← ht2]
        exact abs_nonneg _
      · rw [← ht2]
        exact abs_ne_zero.mpr hne
    · exact absurd hr (by simp)
  · intro parseDate findDate text t ht
    unfold parseText at ht
    exact parseText_foldl_amount parseDate findDate _ _ (by intro u hu; cases hu) t ht
  · intro parseDate table t ht
    unfold parseTable at ht
    split at ht
    · cases ht
    · cases ht
    · obtain ⟨r, _, hr⟩ := List.mem_filterMap.mp ht
      simp only [parseTableRow] at hr
      split at hr
      · exact absurd hr (by simp)
      · split at hr
        · split at hr
          · rename_i hne
            have ht2 := Option.some.inj hr
            rw [← ht2]
            exact hne
          · exact absurd hr (by simp)
        · exact absurd hr (by simp)

unseal Rat.add Rat.mul Rat.sub Rat.inv in
/-- Witness for C6 (amended): the three path statements applied to concrete
documents and the concrete records they emit. -/
theorem c6_witness :
    (0 ≤ (PTxn.mk (some 0) (lit (r"NETFLIX")) (25 / 2) (lit (r"NETFLIX"))).amount ∧
      (PTxn.mk (some 0) (lit (r"NETFLIX")) (25 / 2) (lit (r"NETFLIX"))).amount ≠ 0) ∧
    ((1 : ℚ) / 100 <
      (PTxn.mk (some 7) (lit (r"NETFLIX")) (25 / 2) (lit (r"NETFLIX"))).amount) ∧
    ((PTxn.mk none (lit (r"X")) 3 (lit (r"X"))).amount ≠ 0) :=
  ⟨c6_amounts_amended.1 (fun _ => 0) 0 [(none, lit (r"NETFLIX"), lit (r"12.5"))] _
      (by decide),
   c6_amounts_amended.2.1 (fun _ => 7) (fun _ => some (lit (r"x")))
      (lit (r"NETFLIX € 12,50")) _ (by decide),
   c6_amounts_amended.2.2 (fun _ => 0)
      [[some (lit (r"amount")), some (lit (r"description"))],
       [some (lit (r"3.00")), some (lit (r"X"))]] _ (by decide)⟩

/-- Witness for C5 (amended): `"12,50"` parses as `1250`. -/
theorem c5_witness :
    lit (r"12") ≠ [] ∧ lit (r"50") ≠ [] ∧
      parseAmount (lit (r"12") ++ ',' :: lit (r"50")) =
        (digitsVal (lit (r"12") ++ lit (r"50")) : ℚ) :=
  ⟨by decide, by decide,
    c5_parseAmount_amended.2 (lit (r"12")) (lit (r"50")) (by decide) (by decide)
      (by decide) (by decide)⟩

/-! Embedding of llm_classifier.py.  Python values flowing out of JSON are
dynamic, so the classification-related dict entries are modelled by `JVal`;
`truthy` is Python truthiness on such values. -/

inductive JVal where
  | null : JVal
  | bool (b : Bool) : JVal
  | num (q : ℚ) : JVal
  | str (s : Str) : JVal
  | arr (elems : List JVal) : JVal
  | obj (fields : List (Str × JVal)) : JVal

mutual

def JVal.beq : JVal → JVal → Bool
  | .null, .null => true
  | .bool a, .bool b => a = b
  | .num a, .num b => a = b
  | .str a, .str b => a = b
  | .arr a, .arr b => JVal.beqList a b
  | .obj a, .obj b => JVal.beqObj a b
  | _, _ => false

def JVal.beqList : List JVal → List JVal → Bool
  | [], [] => true
  | a :: as, b :: bs => JVal.beq a b && JVal.beqList as bs
  | _, _ => false

def JVal.beqObj : List (Str × JVal) → List (Str × JVal) → Bool
  | [], [] => true
  | (k1, v1) :: as, (k2, v2) :: bs => k1 = k2 && JVal.beq v1 v2 && JVal.beqObj as bs
  | _, _ => false

end

mutual

theorem JVal.beq_iff : ∀ (a b : JVal), JVal.beq a b = true ↔ a = b
  | .null, .null => by simp [JVal.beq]
  | .bool a, .bool b => by simp [JVal.beq]
  | .num a, .num b => by simp [JVal.beq]
  | .str a, .str b => by simp [JVal.beq]
  | .arr a, .arr b => by
    simp only [JVal.beq, JVal.beqList_iff a b, JVal.arr.injEq]
  | .obj a, .obj b => by
    simp only [JVal.beq, JVal.beqObj_iff a b, JVal.obj.injEq]
  | .null, .bool _ => by simp [JVal.beq]
  | .null, .num _ => by simp [JVal.beq]
  | .null, .str _ => by simp [JVal.beq]
  | .null, .arr _ => by simp [JVal.beq]
  | .null, .obj _ => by simp [JVal.beq]
  | .bool _, .null => by simp [JVal.beq]
  | .bool _, .num _ => by simp [JVal.beq]
  | .bool _, .str _ => by simp [JVal.beq]
  | .bool _, .arr _ => by simp [JVal.beq]
  | .bool _, .obj _ => by simp [JVal.beq]
  | .num _, .null => by simp [JVal.beq]
  | .num _, .bool _ => by simp [JVal.beq]
  | .num _, .str _ => by simp [JVal.beq]
  | .num _, .arr _ => by simp [JVal.beq]
  | .num _, .obj _ => by simp [JVal.beq]
  | .str _, .null => by simp [JVal.beq]
  | .str _, .bool _ => by simp [JVal.beq]
  | .str _, .num _ => by simp [JVal.beq]
  | .str _, .arr _ => by simp [JVal.beq]
  | .str _, .obj _ => by simp [JVal.beq]
  | .arr _, .null => by simp [JVal.beq]
  | .arr _, .bool _ => by simp [JVal.beq]
  | .arr _, .num _ => by simp [JVal.beq]
  | .arr _, .str _ => by simp [JVal.beq]
  | .arr _, .obj _ => by simp [JVal.beq]
  | .obj _, .null => by simp [JVal.beq]
  | .obj _, .bool _ => by simp [JVal.beq]
  | .obj _, .num _ => by simp [JVal.beq]
  | .obj _, .str _ => by simp [JVal.beq]
  | .obj _, .arr _ => by simp [JVal.beq]

theorem JVal.beqList_iff : ∀ (a b : List JVal), JVal.beqList a b = true ↔ a = b
  | [], [] => by simp [JVal.beqList]
  | a :: as, b :: bs => by
    simp [JVal.beqList, JVal.beq_iff a b, JVal.beqList_iff as bs]
  | [], _ :: _ => by simp [JVal.beqList]
  | _ :: _, [] => by simp [JVal.beqList]

theorem JVal.beqObj_iff : ∀ (a b : List (Str × JVal)), JVal.beqObj a b = true ↔ a = b
  | [], [] => by simp [JVal.beqObj]
  | (k1, v1) :: as, (k2, v2) :: bs => by
    simp [JVal.beqObj, JVal.beq_iff v1 v2, JVal.beqObj_iff as bs]
  | [], _ :: _ => by simp [JVal.beqObj]
  | _ :: _, [] => by simp [JVal.beqObj]

end

instance : DecidableEq JVal := fun a b =>
  decidable_of_iff (JVal.beq a b = true) (JVal.beq_iff a b)

/-- Python truthiness of a JSON-like value. -/
def truthy : JVal → Bool
  | .null => false
  | .bool b => b
  | .num q => q ≠ 0
  | .str s => s ≠ []
  | .arr l => l ≠ []
  | .obj f => f ≠ []

/-- A transaction record in the classifier stage.  Parser-produced records
carry only the first four fields; the classifier fields default to null
(Python: the keys are absent, and every read goes through `.get`, which
treats an absent key like a null one at these call sites). -/
structure Txn where
  amount : ℚ
  date : Int
  description : Str
  merchant : Str
  is_membership : JVal := JVal.null
  membership_type : JVal := JVal.null
  frequency : JVal := JVal.null
  category : JVal := JVal.null
  monthly_cost : Option ℚ := none
  total_paid : Option ℚ := none
deriving DecidableEq

/-- The accented-uppercase letter class `[A-ZÀÂÆÇÉÈÊËÎÏÔŒÙÛÜŸ]` of the
merchant-cleaning regexes. -/
def isFrUpper (c : Char) : Bool :=
  (65 ≤ c.toNat && c.toNat ≤ 90) || (lit (r"ÀÂÆÇÉÈÊËÎÏÔŒÙÛÜŸ")).any (fun d => d = c)

/-- Match of `\d+\s+[A-ZÀ...]+\.?\s*` at the current position, returning the
remainder after the match. -/
def datePatMatch (s : Str) : Option Str :=
  if s.takeWhile (fun c => pyIsDigit c) = [] then none
  else
    let r1 := s.dropWhile (fun c => pyIsDigit c)
    if r1.takeWhile (fun c => pyIsSpace c) = [] then none
    else
      let r2 := r1.dropWhile (fun c => pyIsSpace c)
      if r2.takeWhile (fun c => isFrUpper c) = [] then none
      else
        let r3 := r2.dropWhile (fun c => isFrUpper c)
        let r4 := match r3 with
          | '.' :: t => t
          | t => t
        some (r4.dropWhile (fun c => pyIsSpace c))

/-- Fuel-based scan of `re.sub(r"\d+\s+[A-ZÀ...]+\.?\s*", "", s)`; every match
consumes at least one character, so `s.length` fuel suffices. -/
def datePatSubGo : Nat → Str → Str
  | 0, s => s
  | _ + 1, [] => []
  | fuel + 1, c :: cs =>
    match datePatMatch (c :: cs) with
    | some rest => datePatSubGo fuel rest
    | none => c :: datePatSubGo fuel cs

/-- Model of `re.sub(r"\d+\s+[A-ZÀ...]+\.?\s*", "", s)` (strip date tokens
like `21 DÉC.`). -/
def datePatSub (s : Str) : Str := datePatSubGo s.length s

/-- Model of `re.sub(r"^[A-ZÀ...]+\.\s*", "", s)` (strip one leading
abbreviated word). -/
def abbrevSub (s : Str) : Str :=
  if s.takeWhile (fun c => isFrUpper c) = [] then s
  else
    match s.dropWhile (fun c => isFrUpper c) with
    | '.' :: t => t.dropWhile (fun c => pyIsSpace c)
    | _ => s

/-- Model of `re.sub(r"\d+", "", s)` (drop every digit). -/
def removeDigits (s : Str) : Str := s.filter (fun c => !pyIsDigit c)

/-- The shared merchant-cleaning chain of `_classify_single`,
`_filter_one_time_payments` and `_classify_batch` (on the already-uppercased
merchant): strip date tokens, strip a leading abbreviation, drop digits,
strip whitespace. -/
def normMerchant (merchant_upper : Str) : Str :=
  pyStrip (removeDigits (abbrevSub (datePatSub merchant_upper)))

def membershipKeywords : List Str :=
  [lit (r"SUBSCRIPTION"), lit (r"MEMBERSHIP"), lit (r"MONTHLY"), lit (r"ANNUAL"),
   lit (r"RECURRING"), lit (r"NETFLIX"), lit (r"SPOTIFY"), lit (r"AMAZON PRIME"),
   lit (r"ADOBE"), lit (r"MICROSOFT 365"), lit (r"MICROSOFT"), lit (r"CURSOR"),
   lit (r"APPLE"), lit (r"GYM"), lit (r"FITNESS"), lit (r"GOLF"), lit (r"TENNIS"),
   lit (r"YOGI"), lit (r"PILATES"), lit (r"OFFICE"), lit (r"SOFTWARE"),
   lit (r"SaaS"), lit (r"CLOUD"), lit (r"NEWS"), lit (r"TIMES"),
   lit (r"JOURNAL"), lit (r"MAGAZINE")]

def sportKeywords : List Str :=
  [lit (r"GYM"), lit (r"FITNESS"), lit (r"GOLF"), lit (r"TENNIS"),
   lit (r"YOGI"), lit (r"PILATES"), lit (r"SPORT")]

def streamingKeywords : List Str :=
  [lit (r"NETFLIX"), lit (r"SPOTIFY"), lit (r"DISNEY"), lit (r"HULU"),
   lit (r"PRIME VIDEO"), lit (r"STREAMING")]

def softwareKeywords : List Str :=
  [lit (r"ADOBE"), lit (r"MICROSOFT"), lit (r"OFFICE"), lit (r"SOFTWARE"),
   lit (r"SaaS"), lit (r"CURSOR"), lit (r"APPLE")]

def newsKeywords : List Str :=
  [lit (r"NEWS"), lit (r"TIMES"), lit (r"JOURNAL"), lit (r"MAGAZINE")]

/-- Frequency detection of `_classify_single` (always assigns; the Streaming
branch's earlier `frequency = "Monthly"` is always overwritten here). -/
def detectFrequency (text : Str) : Str :=
  if pyContains (lit (r"MONTHLY")) text || pyContains (lit (r"MONTH")) text then
    lit (r"Monthly")
  else if pyContains (lit (r"YEARLY")) text || pyContains (lit (r"ANNUAL")) text ||
      pyContains (lit (r"YEAR")) text then
    lit (r"Yearly")
  else if pyContains (lit (r"WEEKLY")) text || pyContains (lit (r"WEEK")) text then
    lit (r"Weekly")
  else lit (r"Monthly")

/-- MembershipClassifier._classify_single.  Result `none` models the
`IndexError` that `description.split()[0]` raises when the description is
non-empty but whitespace-only while the cleaned merchant is empty. -/
def classifySingle (t : Txn) : Option Txn :=
  let description := pyUpper t.description
  let merchant := pyUpper t.merchant
  let text := description ++ ' ' :: merchant
  let is_mem := membershipKeywords.any (fun k => pyContains k text)
  let merchant_clean := normMerchant merchant
  let category? : Option Str :=
    if description ≠ [] then
      (if merchant_clean ≠ [] then some merchant_clean
       else (splitWs description).head?)
    else some (if merchant_clean ≠ [] then merchant_clean else lit (r"Unknown"))
  match category? with
  | none => none
  | some category =>
    some { t with
      is_membership := JVal.bool is_mem,
      membership_type :=
        if ¬ is_mem then JVal.null
        else if sportKeywords.any (fun k => pyContains k text) then
          JVal.str (lit (r"Sport"))
        else if streamingKeywords.any (fun k => pyContains k text) then
          JVal.str (lit (r"Streaming"))
        else if softwareKeywords.any (fun k => pyContains k text) then
          JVal.str (lit (r"Software"))
        else if newsKeywords.any (fun k => pyContains k text) then
          JVal.str (lit (r"News"))
        else JVal.str (lit (r"Services")),
      frequency := if is_mem then JVal.str (detectFrequency text) else JVal.null,
      category := JVal.str category }

/-- MembershipClassifier._rule_based_classify. -/
def ruleBasedClassify : List Txn → Option (List Txn)
  | [] => some []
  | t :: ts =>
    match classifySingle t with
    | none => none
    | some t2 =>
      match ruleBasedClassify ts with
      | none => none
      | some ts2 => some (t2 :: ts2)

/-- The one-time-payment filter's grouping key: the normalized uppercased
merchant, with an `"Unknown"` fallback when nothing remains. -/
def filterKey (t : Txn) : Str :=
  let k := normMerchant (pyUpper t.merchant)
  if k = [] then lit (r"Unknown") else k

/-- Number of membership-flagged records sharing a grouping key. -/
def flaggedKeyCount (l : List Txn) (k : Str) : Nat :=
  l.countP (fun u => truthy u.is_membership && filterKey u = k)

/-- Demotion of a one-time payment: clear the three membership fields. -/
def demote (t : Txn) : Txn :=
  { t with is_membership := JVal.bool false, membership_type := JVal.null,
           frequency := JVal.null }

/-- MembershipClassifier._filter_one_time_payments: every membership-flagged
record whose merchant group is a singleton is demoted in place. -/
def filterOneTime (l : List Txn) : List Txn :=
  l.map (fun t =>
    if truthy t.is_membership ∧ flaggedKeyCount l (filterKey t) = 1 then demote t
    else t)

/-- Membership-only projection (`[t for t in classified if t.get("is_membership")]`). -/
def membershipOnly (l : List Txn) : List Txn :=
  l.filter (fun t => truthy t.is_membership)

/-- Python `sum` over rational amounts. -/
def rsum (l : List ℚ) : ℚ := l.foldl (fun a b => a + b) 0

/-- Amounts of the category group of `cat` inside `l`, in order. -/
def groupAmounts (l : List Txn) (cat : JVal) : List ℚ :=
  (l.filter (fun t => t.category = cat)).map (fun t => t.amount)

/-- The frequency `_add_monthly_costs` uses for a category group: the first
group member's (`items[0]`); all records entering this stage carry the
`frequency` key, so `.get("frequency", "Monthly")` reads the stored value. -/
def groupFreq (l : List Txn) (cat : JVal) : JVal :=
  match l.filter (fun t => t.category = cat) with
  | [] => JVal.null
  | t :: _ => t.frequency

/-- The monthly conversion of `_add_monthly_costs`. -/
def convertMonthly (freq : JVal) (avg : ℚ) : ℚ :=
  if freq = JVal.str (lit (r"Yearly")) then avg / 12
  else if freq = JVal.str (lit (r"Weekly")) then avg * (433 / 100)
  else if freq = JVal.str (lit (r"Quarterly")) then avg / 3
  else if freq = JVal.str (lit (r"Bi-annual")) then avg / 6
  else avg

/-- Round half to even on exact rationals (model of Python `round(x)`). -/
def roundHalfEven (q : ℚ) : Int :=
  if q - ⌊q⌋ < 1 / 2 then ⌊q⌋
  else if 1 / 2 < q - ⌊q⌋ then ⌊q⌋ + 1
  else if ⌊q⌋ % 2 = 0 then ⌊q⌋ else ⌊q⌋ + 1

/-- Model of Python `round(x, 2)` on the exact rational. -/
def round2 (q : ℚ) : ℚ := (roundHalfEven (q * 100) : ℚ) / 100

/-- MembershipClassifier._add_monthly_costs: per category, attach the
rounded converted mean and the total to every record of the group. -/
def addMonthlyCosts (memberships : List Txn) : List Txn :=
  memberships.map (fun t =>
    { t with
      monthly_cost := some (round2 (convertMonthly (groupFreq memberships t.category)
        (rsum (groupAmounts memberships t.category) /
          (groupAmounts memberships t.category).length))),
      total_paid := some (rsum (groupAmounts memberships t.category)) })

/-- The always-run post-processing of classify_transactions: one-time-payment
filter, membership-only projection, monthly-cost estimation. -/
def postProcess (classified : List Txn) : List Txn :=
  addMonthlyCosts (membershipOnly (filterOneTime classified))

/-- MembershipClassifier.classify_transactions under the rule-based strategy. -/
def classifyTransactionsRule (ts : List Txn) : Option (List Txn) :=
  (ruleBasedClassify ts).map postProcess

/-! Claim C10: the keyword `"SaaS"` can never match the uppercased text. -/

theorem pyContains_infix {n h : Str} (hc : pyContains n h = true) : n <:+: h := by
  induction h with
  | nil =>
    simp only [pyContains] at hc
    have : n <+: [] := List.isPrefixOf_iff_prefix.mp hc
    exact this.isInfix
  | cons c cs ih =>
    simp only [pyContains, Bool.or_eq_true] at hc
    rcases hc with h1 | h1
    · exact (List.isPrefixOf_iff_prefix.mp h1).isInfix
    · exact (ih h1).trans (List.suffix_cons c cs).isInfix

theorem charUpper_ne_a (c : Char) : charUpper c ≠ 'a' := by
  intro h
  apply charUpper_not_lower c
  rw [h]
  exact ⟨by decide, by decide⟩

theorem a_not_mem_upper_text (d m : Str) :
    'a' ∉ (pyUpper d ++ ' ' :: pyUpper m) := by
  intro h
  rcases List.mem_append.mp h with h1 | h1
  · obtain ⟨x, _, hx⟩ := List.mem_map.mp h1
    exact charUpper_ne_a x hx
  · rcases List.mem_cons.mp h1 with h2 | h2
    · cases h2
    · obtain ⟨x, _, hx⟩ := List.mem_map.mp h2
      exact charUpper_ne_a x hx

theorem saas_not_contained (d m : Str) :
    pyContains (lit (r"SaaS")) (pyUpper d ++ ' ' :: pyUpper m) = false := by
  rcases Bool.eq_false_or_eq_true (pyContains (lit (r"SaaS"))
      (pyUpper d ++ ' ' :: pyUpper m)) with h | h
  · exfalso
    have hinf := pyContains_infix h
    have : 'a' ∈ (pyUpper d ++ ' ' :: pyUpper m) :=
      hinf.subset (by decide : 'a' ∈ lit (r"SaaS"))
    exact a_not_mem_upper_text d m this
  · exact h

/-- The membership keyword list with the dead `"SaaS"` entry removed
(written out per the claim being checked). -/
def membershipKeywordsNoSaaS : List Str :=
  [lit (r"SUBSCRIPTION"), lit (r"MEMBERSHIP"), lit (r"MONTHLY"), lit (r"ANNUAL"),
   lit (r"RECURRING"), lit (r"NETFLIX"), lit (r"SPOTIFY"), lit (r"AMAZON PRIME"),
   lit (r"ADOBE"), lit (r"MICROSOFT 365"), lit (r"MICROSOFT"), lit (r"CURSOR"),
   lit (r"APPLE"), lit (r"GYM"), lit (r"FITNESS"), lit (r"GOLF"), lit (r"TENNIS"),
   lit (r"YOGI"), lit (r"PILATES"), lit (r"OFFICE"), lit (r"SOFTWARE"),
   lit (r"CLOUD"), lit (r"NEWS"), lit (r"TIMES"),
   lit (r"JOURNAL"), lit (r"MAGAZINE")]

/-- The Software bucket keyword list with `"SaaS"` removed. -/
def softwareKeywordsNoSaaS : List Str :=
  [lit (r"ADOBE"), lit (r"MICROSOFT"), lit (r"OFFICE"), lit (r"SOFTWARE"),
   lit (r"CURSOR"), lit (r"APPLE")]

/-- `_classify_single` with `"SaaS"` removed from both keyword lists. -/
def classifySingleNoSaaS (t : Txn) : Option Txn :=
  let description := pyUpper t.description
  let merchant := pyUpper t.merchant
  let text := description ++ ' ' :: merchant
  let is_mem := membershipKeywordsNoSaaS.any (fun k => pyContains k text)
  let merchant_clean := normMerchant merchant
  let category? : Option Str :=
    if description ≠ [] then
      (if merchant_clean ≠ [] then some merchant_clean
       else (splitWs description).head?)
    else some (if merchant_clean ≠ [] then merchant_clean else lit (r"Unknown"))
  match category? with
  | none => none
  | some category =>
    some { t with
      is_membership := JVal.bool is_mem,
      membership_type :=
        if ¬ is_mem then JVal.null
        else if sportKeywords.any (fun k => pyContains k text) then
          JVal.str (lit (r"Sport"))
        else if streamingKeywords.any (fun k => pyContains k text) then
          JVal.str (lit (r"Streaming"))
        else if softwareKeywordsNoSaaS.any (fun k => pyContains k text) then
          JVal.str (lit (r"Software"))
        else if newsKeywords.any (fun k => pyContains k text) then
          JVal.str (lit (r"News"))
        else JVal.str (lit (r"Services")),
      frequency := if is_mem then JVal.str (detectFrequency text) else JVal.null,
      category := JVal.str category }

/-- C10 (confirmed): since the tested text is uppercased, `"SaaS"` can never
occur in it, and the rule-based per-transaction classifier is extensionally
the same function with `"SaaS"` deleted from the membership list and from the
Software bucket list. -/
theorem c10_saas_dead (t : Txn) : classifySingle t = classifySingleNoSaaS t := by
  unfold classifySingle classifySingleNoSaaS
  have hs := saas_not_contained t.description t.merchant
  simp only [membershipKeywords, membershipKeywordsNoSaaS, softwareKeywords,
    softwareKeywordsNoSaaS, List.any_cons, List.any_nil, hs, Bool.false_or,
    Bool.or_false]

/-! Claim C2: monthly-cost estimation. -/

theorem groupAmounts_map (l : List Txn) (f : Txn → Txn)
    (hcat : ∀ t, (f t).category = t.category)
    (hamt : ∀ t, (f t).amount = t.amount) (cat : JVal) :
    groupAmounts (l.map f) cat = groupAmounts l cat := by
  induction l with
  | nil => rfl
  | cons t ts ih =>
    unfold groupAmounts at ih ⊢
    rw [List.map_cons, List.filter_cons, List.filter_cons]
    by_cases hc : t.category = cat
    · rw [if_pos (by simp [hcat t, hc]), if_pos (by simp [hc])]
      rw [List.map_cons, List.map_cons, hamt t, ih]
    · rw [if_neg (by simp [hcat t, hc]), if_neg (by simp [hc]), ih]

theorem groupFreq_map (l : List Txn) (f : Txn → Txn)
    (hcat : ∀ t, (f t).category = t.category)
    (hfr : ∀ t, (f t).frequency = t.frequency) (cat : JVal) :
    groupFreq (l.map f) cat = groupFreq l cat := by
  induction l with
  | nil => rfl
  | cons t ts ih =>
    unfold groupFreq at ih ⊢
    rw [List.map_cons, List.filter_cons, List.filter_cons]
    by_cases hc : t.category = cat
    · rw [if_pos (by simp [hcat t, hc]), if_pos (by simp [hc])]
      exact hfr t
    · rw [if_neg (by simp [hcat t, hc]), if_neg (by simp [hc])]
      exact ih

theorem addMonthlyCosts_fields (mem : List Txn) (r : Txn)
    (hr : r ∈ addMonthlyCosts mem) :
    r.monthly_cost = some (round2 (convertMonthly (groupFreq mem r.category)
      (rsum (groupAmounts mem r.category) / (groupAmounts mem r.category).length))) ∧
    r.total_paid = some (rsum (groupAmounts mem r.category)) := by
  unfold addMonthlyCosts at hr
  obtain ⟨t, _, rfl⟩ := List.mem_map.mp hr
  exact ⟨rfl, rfl⟩

theorem groupAmounts_addMonthlyCosts (mem : List Txn) (cat : JVal) :
    groupAmounts (addMonthlyCosts mem) cat = groupAmounts mem cat := by
  unfold addMonthlyCosts
  apply groupAmounts_map
  · intro t; rfl
  · intro t; rfl

theorem groupFreq_addMonthlyCosts (mem : List Txn) (cat : JVal) :
    groupFreq (addMonthlyCosts mem) cat = groupFreq mem cat := by
  unfold addMonthlyCosts
  apply groupFreq_map
  · intro t; rfl
  · intro t; rfl

/-- A placeholder record used only as a `headD` default in witnesses. -/
def dummyTxn : Txn :=
  { amount := 0, date := 0, description := [], merchant := [] }

/-- Two yearly Netflix payments averaging 120. -/
def sampleYearly : List Txn :=
  [{ amount := 100, date := 0, description := lit (r"NETFLIX YEARLY SUB"),
     merchant := lit (r"NETFLIX") },
   { amount := 140, date := 30, description := lit (r"NETFLIX YEARLY SUB"),
     merchant := lit (r"NETFLIX") }]

/-- Two weekly gym payments averaging 10. -/
def sampleWeekly : List Txn :=
  [{ amount := 8, date := 0, description := lit (r"GYM WEEKLY"),
     merchant := lit (r"GYM") },
   { amount := 12, date := 7, description := lit (r"GYM WEEKLY"),
     merchant := lit (r"GYM") }]

def outYearly : List Txn := (classifyTransactionsRule sampleYearly).getD []

def outWeekly : List Txn := (classifyTransactionsRule sampleWeekly).getD []

/-! Embedding of the model-assisted path of `_classify_batch`.  The service
response for each batch is a parameter: `some content` is the returned text,
`none` models a service call that raised (timeout, auth).  `json.loads` is
modelled by a fuel-based JSON parser `jloads` (strict full-string parse; the
Python extras `NaN`/`Infinity` and `\uXXXX` escapes are outside the model). -/

/-- JSON whitespace. -/
def isJsonWs (c : Char) : Bool := c = ' ' || c = '\t' || c = '\n' || c = '\r'

/-- Skip JSON whitespace. -/
def jskipWs (s : Str) : Str := s.dropWhile (fun c => isJsonWs c)

/-- JSON string escapes (one character after the backslash). -/
def jescape (c : Char) : Option Char :=
  if c = '"' then some '"'
  else if c = '\\' then some '\\'
  else if c = '/' then some '/'
  else if c = 'n' then some '\n'
  else if c = 't' then some '\t'
  else if c = 'r' then some '\r'
  else if c = 'b' then some '\x08'
  else if c = 'f' then some '\x0c'
  else none

/-- Exponent tail of a JSON number. -/
def jparseExpTail (m : ℚ) (r : Str) : Option (ℚ × Str) :=
  let p : Int × Str :=
    match r with
    | '+' :: r2 => (1, r2)
    | '-' :: r2 => (-1, r2)
    | r2 => (1, r2)
  let ed := p.2.takeWhile (fun c => pyIsDigit c)
  if ed = [] then none
  else some (m * (10 : ℚ) ^ (p.1 * (digitsVal ed : Int)),
    p.2.dropWhile (fun c => pyIsDigit c))

/-- Optional exponent of a JSON number. -/
def jparseExp (m : ℚ) : Str → Option (ℚ × Str)
  | 'e' :: r => jparseExpTail m r
  | 'E' :: r => jparseExpTail m r
  | r => some (m, r)

/-- Unsigned JSON number. -/
def jparseNumCore (r0 : Str) : Option (ℚ × Str) :=
  let ip := r0.takeWhile (fun c => pyIsDigit c)
  let r1 := r0.dropWhile (fun c => pyIsDigit c)
  if ip = [] then none
  else
    match r1 with
    | '.' :: rr =>
      let fp := rr.takeWhile (fun c => pyIsDigit c)
      if fp = [] then none
      else jparseExp ((digitsVal ip : ℚ) + (digitsVal fp : ℚ) / 10 ^ fp.length)
        (rr.dropWhile (fun c => pyIsDigit c))
    | r1' => jparseExp (digitsVal ip : ℚ) r1'

/-- JSON number (with optional leading minus). -/
def jparseNum : Str → Option (JVal × Str)
  | '-' :: r0 => (jparseNumCore r0).map (fun p => (JVal.num (-p.1), p.2))
  | r0 => (jparseNumCore r0).map (fun p => (JVal.num p.1, p.2))

mutual

/-- One JSON value; consumes leading whitespace. -/
def jparseVal : Nat → Str → Option (JVal × Str)
  | 0, _ => none
  | fuel + 1, s =>
    match jskipWs s with
    | 'n' :: 'u' :: 'l' :: 'l' :: r => some (JVal.null, r)
    | 't' :: 'r' :: 'u' :: 'e' :: r => some (JVal.bool true, r)
    | 'f' :: 'a' :: 'l' :: 's' :: 'e' :: r => some (JVal.bool false, r)
    | '"' :: r => (jparseStrBody fuel r).map (fun p => (JVal.str p.1, p.2))
    | '[' :: r =>
      (match jskipWs r with
       | ']' :: r2 => some (JVal.arr [], r2)
       | _ => (jparseElems fuel r).map (fun p => (JVal.arr p.1, p.2)))
    | '\x7b' :: r =>
      (match jskipWs r with
       | '\x7d' :: r2 => some (JVal.obj [], r2)
       | _ => (jparseMembers fuel r).map (fun p => (JVal.obj p.1, p.2)))
    | r => jparseNum r

/-- Comma-separated values up to the closing bracket. -/
def jparseElems : Nat → Str → Option (List JVal × Str)
  | 0, _ => none
  | fuel + 1, s =>
    match jparseVal fuel s with
    | none => none
    | some (v, r) =>
      match jskipWs r with
      | ',' :: r2 => (jparseElems fuel r2).map (fun p => (v :: p.1, p.2))
      | ']' :: r2 => some ([v], r2)
      | _ => none

/-- Comma-separated key-value members up to the closing brace. -/
def jparseMembers : Nat → Str → Option (List (Str × JVal) × Str)
  | 0, _ => none
  | fuel + 1, s =>
    match jskipWs s with
    | '"' :: r =>
      (match jparseStrBody fuel r with
       | none => none
       | some (k, r1) =>
         match jskipWs r1 with
         | ':' :: r2 =>
           (match jparseVal fuel r2 with
            | none => none
            | some (v, r3) =>
              match jskipWs r3 with
              | ',' :: r4 => (jparseMembers fuel r4).map (fun p => ((k, v) :: p.1, p.2))
              | '\x7d' :: r4 => some ([(k, v)], r4)
              | _ => none)
         | _ => none)
    | _ => none

/-- Body of a JSON string after the opening quote. -/
def jparseStrBody : Nat → Str → Option (Str × Str)
  | 0, _ => none
  | _ + 1, [] => none
  | fuel + 1, c :: r =>
    if c = '"' then some ([], r)
    else if c = '\\' then
      match r with
      | [] => none
      | e :: r2 =>
        match jescape e with
        | none => none
        | some ec => (jparseStrBody fuel r2).map (fun p => (ec :: p.1, p.2))
    else (jparseStrBody fuel r).map (fun p => (c :: p.1, p.2))

end

/-- Model of `json.loads`: one value, then only trailing whitespace. -/
def jloads (content : Str) : Option JVal :=
  match jparseVal (content.length + 1) content with
  | some (v, rest) => if jskipWs rest = [] then some v else none
  | none => none

/-- Model of `re.search(r"\[.*\]", content, re.DOTALL)`: the substring from
the first `[` to the last `]` after it, if both exist. -/
def arraySub (content : Str) : Option Str :=
  match content.dropWhile (fun c => c ≠ '[') with
  | [] => none
  | seg =>
    match seg.reverse.dropWhile (fun c => c ≠ ']') with
    | [] => none
    | rseg => some rseg.reverse

/-- Python `dict.get` on parsed JSON object fields (duplicate keys: the last
occurrence wins, as in `json.loads`). -/
def objGetD (fields : List (Str × JVal)) (k : Str) (d : JVal) : JVal :=
  match fields.reverse.find? (fun p => p.1 = k) with
  | some p => p.2
  | none => d

/-- Python `key in dict`. -/
def objHas (fields : List (Str × JVal)) (k : Str) : Bool :=
  fields.any (fun p => p.1 = k)

/-- Distinct keys, for Python `len(dict)`. -/
def dedupGo (seen : List Str) : List Str → List Str
  | [] => []
  | k :: ks =>
    if seen.any (fun x => x = k) then dedupGo seen ks
    else k :: dedupGo (k :: seen) ks

/-- Python `len(dict)` on parsed JSON object fields. -/
def objLen (fields : List (Str × JVal)) : Nat :=
  (dedupGo [] (fields.map (fun p => p.1))).length

/-- Python `len(classifications)`: defined for lists, strings and dicts,
a `TypeError` (none) otherwise. -/
def pyLenJ : JVal → Option Nat
  | .arr l => some l.length
  | .str s => some s.length
  | .obj f => some (objLen f)
  | _ => none

/-- `classifications[i]` inside the merge loop.  For a string the indexing
succeeds but the following `.get` raises; for a dict the integer key raises
`KeyError`; both are modelled as the raise (`none`). -/
def classIndex : JVal → Nat → Option JVal
  | .arr l, i => l.get? i
  | _, _ => none

/-- Merging one positional classification into one transaction (raises,
`none`, when the classification is not a dict). -/
def mergeTxn (c : JVal) (t : Txn) : Option Txn :=
  match c with
  | .obj fs =>
    some { t with
      is_membership := objGetD fs (lit (r"is_membership")) (JVal.bool false),
      membership_type := objGetD fs (lit (r"membership_type")) JVal.null,
      frequency := objGetD fs (lit (r"frequency")) JVal.null,
      category := objGetD fs (lit (r"category")) (JVal.str t.merchant) }
  | _ => none

/-- The positional merge loop of `_classify_batch` (lines 187-205); `none`
models an exception, which the outer handler converts to a rule-based pass
over the original batch (the same four keys are overwritten there, so partial
mutation before the exception is invisible in the result). -/
def mergeLoop (cs : JVal) (n : Nat) : List Txn → Nat → Option (List Txn)
  | [], _ => some []
  | t :: ts, i =>
    if i < n then
      match classIndex cs i with
      | none => none
      | some c =>
        match mergeTxn c t with
        | none => none
        | some t2 => (mergeLoop cs n ts (i + 1)).map (fun l => t2 :: l)
    else
      match classifySingle t with
      | none => none
      | some t2 => (mergeLoop cs n ts (i + 1)).map (fun l => t2 :: l)

/-- MembershipClassifier._classify_batch given the service outcome for this
batch (`none` = the API call raised).  The defensive parse chain: direct
JSON, object wrapping a `"transactions"` entry, bracketed array embedded in
the text, singleton wrap of any other JSON value; any remaining failure or
merge exception degrades to the rule-based classification of the batch. -/
def classifyBatch (content? : Option Str) (ts : List Txn) : Option (List Txn) :=
  match content? with
  | none => ruleBasedClassify ts
  | some content =>
    let cs? : Option JVal :=
      match jloads content with
      | none => (arraySub content).bind jloads
      | some (JVal.obj fs) =>
        if objHas fs (lit (r"transactions")) then
          some (objGetD fs (lit (r"transactions")) JVal.null)
        else
          (match arraySub content with
           | some sub => jloads sub
           | none => some (JVal.arr [JVal.obj fs]))
      | some (JVal.arr l) => some (JVal.arr l)
      | some v =>
        (match arraySub content with
         | some sub => jloads sub
         | none => some (JVal.arr [v]))
    match cs? with
    | none => ruleBasedClassify ts
    | some cs =>
      match pyLenJ cs with
      | none => ruleBasedClassify ts
      | some n =>
        match mergeLoop cs n ts 0 with
        | some out => some out
        | none => ruleBasedClassify ts

/-- The batch chunking of classify_transactions (batch size 20), with the
list length as structural fuel. -/
def chunksGo : Nat → List Txn → List (List Txn)
  | _, [] => []
  | 0, l => [l]
  | fuel + 1, l => l.take 20 :: chunksGo fuel (l.drop 20)

/-- Sequential classification of the batches against the per-batch service
outcomes. -/
def classifyBatches : List (Option Str) → List (List Txn) → Option (List Txn)
  | _, [] => some []
  | cs, b :: bs =>
    match classifyBatch (cs.headD none) b with
    | none => none
    | some out1 =>
      match classifyBatches cs.tail bs with
      | none => none
      | some rest => some (out1 ++ rest)

/-- MembershipClassifier.classify_transactions under the model-assisted
strategy, with the per-batch service outcomes as input. -/
def classifyTransactionsAI (contents : List (Option Str)) (ts : List Txn) :
    Option (List Txn) :=
  (classifyBatches contents (chunksGo ts.length ts)).map postProcess

/-! Structural lemmas about both classification strategies, shared by the
claims about the classifier pipeline. -/

theorem classifySingle_some (t r : Txn) (h : classifySingle t = some r) :
    r.amount = t.amount ∧ r.date = t.date ∧ r.merchant = t.merchant ∧
    (truthy r.is_membership = true →
      r.membership_type ≠ JVal.null ∧ r.frequency ≠ JVal.null) ∧
    r.category ≠ JVal.null := by
  simp only [classifySingle] at h
  split at h
  · cases h
  · have h2 := Option.some.inj h
    subst h2
    refine ⟨rfl, rfl, rfl, ?_, by simp⟩
    intro htr
    simp only [truthy] at htr
    rw [htr]
    constructor
    · simp only [not_true, if_false]
      split
      · simp
      · split
        · simp
        · split
          · simp
          · split
            · simp
            · simp
    · simp

theorem ruleBasedClassify_mem :
    ∀ (ts c : List Txn), ruleBasedClassify ts = some c →
      ∀ r ∈ c, ∃ t ∈ ts, classifySingle t = some r := by
  intro ts
  induction ts with
  | nil =>
    intro c h r hr
    simp only [ruleBasedClassify] at h
    rw [← Option.some.inj h] at hr
    cases hr
  | cons t ts ih =>
    intro c h r hr
    cases hcs : classifySingle t with
    | none => simp only [ruleBasedClassify, hcs] at h; cases h
    | some t2 =>
      cases hrest : ruleBasedClassify ts with
      | none => simp only [ruleBasedClassify, hcs, hrest] at h; cases h
      | some ts2 =>
        simp only [ruleBasedClassify, hcs, hrest] at h
        rw [← Option.some.inj h] at hr
        rcases List.mem_cons.mp hr with h3 | h3
        · exact ⟨t, by simp, by rw [hcs, h3]⟩
        · obtain ⟨u, hu, hcu⟩ := ih ts2 hrest r h3
          exact ⟨u, by simp [hu], hcu⟩

theorem mergeTxn_some (c : JVal) (t r : Txn) (h : mergeTxn c t = some r) :
    r.amount = t.amount ∧ r.date = t.date ∧ r.merchant = t.merchant := by
  unfold mergeTxn at h
  split at h
  · have h2 := Option.some.inj h
    subst h2
    exact ⟨rfl, rfl, rfl⟩
  · cases h

theorem mergeLoop_mem :
    ∀ (b : List Txn) (cs : JVal) (n i : Nat) (out : List Txn),
      mergeLoop cs n b i = some out → ∀ r ∈ out, ∃ t ∈ b,
        r.amount = t.amount ∧ r.date = t.date ∧ r.merchant = t.merchant := by
  intro b
  induction b with
  | nil =>
    intro cs n i out h r hr
    simp only [mergeLoop] at h
    rw [← Option.some.inj h] at hr
    cases hr
  | cons t ts ih =>
    intro cs n i out h r hr
    by_cases hin : i < n
    · cases hci : classIndex cs i with
      | none => simp only [mergeLoop, if_pos hin, hci] at h; cases h
      | some c =>
        cases hmt : mergeTxn c t with
        | none => simp only [mergeLoop, if_pos hin, hci, hmt] at h; cases h
        | some t2 =>
          simp only [mergeLoop, if_pos hin, hci, hmt] at h
          obtain ⟨rest, hrest, hout⟩ := Option.map_eq_some'.mp h
          rw [← hout] at hr
          rcases List.mem_cons.mp hr with h3 | h3
          · subst h3
            obtain ⟨ha, hd, hm⟩ := mergeTxn_some c t r hmt
            exact ⟨t, by simp, ha, hd, hm⟩
          · obtain ⟨u, hu, hfields⟩ := ih cs n (i + 1) rest hrest r h3
            exact ⟨u, by simp [hu], hfields⟩
    · cases hcs : classifySingle t with
      | none => simp only [mergeLoop, if_neg hin, hcs] at h; cases h
      | some t2 =>
        simp only [mergeLoop, if_neg hin, hcs] at h
        obtain ⟨rest, hrest, hout⟩ := Option.map_eq_some'.mp h
        rw [← hout] at hr
        rcases List.mem_cons.mp hr with h3 | h3
        · subst h3
          obtain ⟨ha, hd, hm, _⟩ := classifySingle_some t r hcs
          exact ⟨t, by simp, ha, hd, hm⟩
        · obtain ⟨u, hu, hfields⟩ := ih cs n (i + 1) rest hrest r h3
          exact ⟨u, by simp [hu], hfields⟩

theorem ruleBased_fields (ts c : List Txn) (h : ruleBasedClassify ts = some c) :
    ∀ r ∈ c, ∃ t ∈ ts,
      r.amount = t.amount ∧ r.date = t.date ∧ r.merchant = t.merchant := by
  intro r hr
  obtain ⟨t, ht, hcs⟩ := ruleBasedClassify_mem ts c h r hr
  obtain ⟨ha, hd, hm, _⟩ := classifySingle_some t r hcs
  exact ⟨t, ht, ha, hd, hm⟩

theorem classifyBatch_fields (content? : Option Str) (b out : List Txn)
    (h : classifyBatch content? b = some out) :
    ∀ r ∈ out, ∃ t ∈ b,
      r.amount = t.amount ∧ r.date = t.date ∧ r.merchant = t.merchant := by
  intro r hr
  match content? with
  | none => exact ruleBased_fields b out h r hr
  | some content =>
    simp only [classifyBatch] at h
    split at h
    · exact ruleBased_fields b out h r hr
    · split at h
      · exact ruleBased_fields b out h r hr
      · split at h
        · rename_i hml
          rw [← Option.some.inj h] at hr
          exact mergeLoop_mem b _ _ 0 _ hml r hr
        · exact ruleBased_fields b out h r hr

theorem chunksGo_mem :
    ∀ (fuel : Nat) (l : List Txn) (b : List Txn), b ∈ chunksGo fuel l →
      ∀ t ∈ b, t ∈ l := by
  intro fuel
  induction fuel with
  | zero =>
    intro l b hb t ht
    cases l with
    | nil => cases hb
    | cons x xs =>
      simp only [chunksGo] at hb
      rcases List.mem_singleton.mp hb with h
      subst h
      exact ht
  | succ fuel ih =>
    intro l b hb t ht
    cases l with
    | nil => cases hb
    | cons x xs =>
      simp only [chunksGo] at hb
      rcases List.mem_cons.mp hb with h | h
      · subst h
        exact List.take_subset 20 (x :: xs) ht
      · exact List.drop_subset 20 (x :: xs) (ih _ b h t ht)

theorem classifyBatches_fields :
    ∀ (bs : List (List Txn)) (contents : List (Option Str)) (out : List Txn),
      classifyBatches contents bs = some out →
      ∀ r ∈ out, ∃ b ∈ bs, ∃ t ∈ b,
        r.amount = t.amount ∧ r.date = t.date ∧ r.merchant = t.merchant := by
  intro bs
  induction bs with
  | nil =>
    intro contents out h r hr
    simp only [classifyBatches] at h
    rw [← Option.some.inj h] at hr
    cases hr
  | cons b bs ih =>
    intro contents out h r hr
    cases hcb : classifyBatch (contents.headD none) b with
    | none => simp only [classifyBatches, hcb] at h; cases h
    | some out1 =>
      cases hrest : classifyBatches contents.tail bs with
      | none => simp only [classifyBatches, hcb, hrest] at h; cases h
      | some rest =>
        simp only [classifyBatches, hcb, hrest] at h
        rw [← Option.some.inj h] at hr
        rcases List.mem_append.mp hr with h3 | h3
        · obtain ⟨t, ht, hf⟩ := classifyBatch_fields _ b out1 hcb r h3
          exact ⟨b, by simp, t, ht, hf⟩
        · obtain ⟨b2, hb2, t, ht, hf⟩ := ih contents.tail rest hrest r h3
          exact ⟨b2, by simp [hb2], t, ht, hf⟩

theorem mem_postProcess (c : List Txn) (r : Txn) (hr : r ∈ postProcess c) :
    ∃ r0 ∈ c, truthy r0.is_membership = true ∧
      flaggedKeyCount c (filterKey r0) ≠ 1 ∧
      r0.membership_type = r.membership_type ∧ r0.frequency = r.frequency ∧
      r0.category = r.category ∧ r0.amount = r.amount ∧ r0.date = r.date ∧
      r0.merchant = r.merchant ∧ filterKey r0 = filterKey r := by
  unfold postProcess addMonthlyCosts at hr
  obtain ⟨r1, hr1, rfl⟩ := List.mem_map.mp hr
  unfold membershipOnly at hr1
  rw [List.mem_filter] at hr1
  obtain ⟨hr1mem, hr1truthy⟩ := hr1
  unfold filterOneTime at hr1mem
  obtain ⟨r0, hr0, heq⟩ := List.mem_map.mp hr1mem
  by_cases hcond : truthy r0.is_membership = true ∧
      flaggedKeyCount c (filterKey r0) = 1
  · rw [if_pos hcond] at heq
    rw [← heq] at hr1truthy
    simp [demote, truthy] at hr1truthy
  · rw [if_neg hcond] at heq
    subst heq
    refine ⟨r0, hr0, hr1truthy, ?_, rfl, rfl, rfl, rfl, rfl, rfl, rfl⟩
    intro h1
    exact hcond ⟨hr1truthy, h1⟩

/-- C2 (confirmed): in the membership-only output of either classification
strategy, grouped by category, each record carries `monthly_cost` equal to
the group's mean amount converted by the group's frequency (the frequency
stored on the group's first record) and rounded to two decimals, and
`total_paid` equal to the sum of the group's amounts. -/
theorem c2_monthly_costs :
    (∀ (ts out : List Txn), classifyTransactionsRule ts = some out →
      ∀ r ∈ out,
        r.monthly_cost = some (round2 (convertMonthly (groupFreq out r.category)
          (rsum (groupAmounts out r.category) /
            (groupAmounts out r.category).length))) ∧
        r.total_paid = some (rsum (groupAmounts out r.category))) ∧
    (∀ (contents : List (Option Str)) (ts out : List Txn),
      classifyTransactionsAI contents ts = some out →
      ∀ r ∈ out,
        r.monthly_cost = some (round2 (convertMonthly (groupFreq out r.category)
          (rsum (groupAmounts out r.category) /
            (groupAmounts out r.category).length))) ∧
        r.total_paid = some (rsum (groupAmounts out r.category))) := by
  have core : ∀ (c : List Txn), ∀ r ∈ postProcess c,
      r.monthly_cost = some (round2 (convertMonthly
        (groupFreq (postProcess c) r.category)
        (rsum (groupAmounts (postProcess c) r.category) /
          (groupAmounts (postProcess c) r.category).length))) ∧
      r.total_paid = some (rsum (groupAmounts (postProcess c) r.category)) := by
    intro c r hr
    unfold postProcess at hr ⊢
    have hf := addMonthlyCosts_fields _ r hr
    rw [groupAmounts_addMonthlyCosts, groupFreq_addMonthlyCosts]
    exact hf
  constructor
  · intro ts out h r hr
    unfold classifyTransactionsRule at h
    obtain ⟨c, _, rfl⟩ := Option.map_eq_some'.mp h
    exact core c r hr
  · intro contents ts out h r hr
    unfold classifyTransactionsAI at h
    obtain ⟨c, _, rfl⟩ := Option.map_eq_some'.mp h
    exact core c r hr

/-- The model-assisted output on the Weekly sample when the service call for
its single batch raised (the code then degrades that batch to rule-based). -/
def outWeeklyAI : List Txn := (classifyTransactionsAI [none] sampleWeekly).getD []

unseal Rat.add Rat.mul Rat.sub Rat.inv in
/-- Witness for C2: a Yearly category with mean 120 gets `monthly_cost` 10.00
and `total_paid` 240; a Weekly category with mean 10 gets 43.30, on the
rule-based path and on the model-assisted path alike. -/
theorem c2_witness :
    (outYearly.headD dummyTxn).monthly_cost = some 10 ∧
    (outYearly.headD dummyTxn).total_paid = some 240 ∧
    (outWeekly.headD dummyTxn).monthly_cost = some (433 / 10) ∧
    (outWeeklyAI.headD dummyTxn).monthly_cost = some (433 / 10) :=
  ⟨(c2_monthly_costs.1 sampleYearly outYearly (by decide)
      (outYearly.headD dummyTxn) (by decide)).1.trans (by decide),
   (c2_monthly_costs.1 sampleYearly outYearly (by decide)
      (outYearly.headD dummyTxn) (by decide)).2.trans (by decide),
   (c2_monthly_costs.1 sampleWeekly outWeekly (by decide)
      (outWeekly.headD dummyTxn) (by decide)).1.trans (by decide),
   (c2_monthly_costs.2 [none] sampleWeekly outWeeklyAI (by decide)
      (outWeeklyAI.headD dummyTxn) (by decide)).1.trans (by decide)⟩

/-! Claim C7: defensive handling of non-JSON service output. -/

/-- The content string `(empty JSON object)` used in the C7 counterexample. -/
def jobjEmpty : Str := ['\x7b', '\x7d']

/-- A sample batch transaction whose rule-based classification is flagged. -/
def tNetflix : Txn :=
  { amount := 10, date := 0, description := lit (r"NETFLIX SUBSCRIPTION"),
    merchant := lit (r"NETFLIX") }

/-- Counterexample for C7 as stated: when the service returns the two-char
text of an empty JSON object (no JSON array can be parsed from it), the code
wraps the parsed dict as a singleton classification list instead of falling
back, and the batch output differs from the rule-based classification. -/
theorem c7_counterexample :
    jloads jobjEmpty = some (JVal.obj []) ∧
    arraySub jobjEmpty = none ∧
    classifyBatch (some jobjEmpty) [tNetflix] ≠ ruleBasedClassify [tNetflix] := by
  refine ⟨by decide, by decide, by decide⟩

/-- C7 (amended): when the returned text is not parseable as JSON at all and
contains no bracketed substring, model-assisted classification of the batch
returns exactly the rule-based classification of the same batch (and, both
results being total values of the same `Option`, no exception passes the
classifier boundary that the rule-based path would not also raise). -/
theorem c7_fallback_amended (content : Str) (ts : List Txn)
    (h1 : jloads content = none) (h2 : arraySub content = none) :
    classifyBatch (some content) ts = ruleBasedClassify ts := by
  simp only [classifyBatch, h1, h2, Option.bind]

/-- Witness for C7 (amended): plain prose is not JSON and holds no brackets. -/
theorem c7_witness :
    jloads (lit (r"sorry, no JSON today")) = none ∧
    classifyBatch (some (lit (r"sorry, no JSON today"))) [tNetflix] =
      ruleBasedClassify [tNetflix] :=
  ⟨by decide, c7_fallback_amended (lit (r"sorry, no JSON today")) [tNetflix]
    (by decide) (by decide)⟩

/-! Claim C3: non-null fields on membership-flagged output. -/

/-- C3 (amended): under the rule-based strategy every record returned by
classify_transactions has a non-null membership_type, frequency and category.
(Under the model-assisted strategy the fields are whatever the service's
positional classification supplied and can be null: see the counterexample.) -/
theorem c3_rule_nonnull (ts out : List Txn)
    (h : classifyTransactionsRule ts = some out) :
    ∀ r ∈ out, r.membership_type ≠ JVal.null ∧ r.frequency ≠ JVal.null ∧
      r.category ≠ JVal.null := by
  intro r hr
  unfold classifyTransactionsRule at h
  obtain ⟨c, hc, rfl⟩ := Option.map_eq_some'.mp h
  obtain ⟨r0, hr0, htruthy, _, hmt, hfr, hcat, _⟩ := mem_postProcess c r hr
  obtain ⟨t, _, hcs⟩ := ruleBasedClassify_mem ts c hc r0 hr0
  obtain ⟨_, _, _, hflag, hcatne⟩ := classifySingle_some t r0 hcs
  obtain ⟨hmtne, hfrne⟩ := hflag htruthy
  exact ⟨hmt ▸ hmtne, hfr ▸ hfrne, hcat ▸ hcatne⟩

unseal Rat.add Rat.mul Rat.sub Rat.inv in
/-- Witness for C3 (amended): the first record of the concrete Yearly sample. -/
theorem c3_witness :
    (outYearly.headD dummyTxn).membership_type ≠ JVal.null ∧
    (outYearly.headD dummyTxn).frequency ≠ JVal.null ∧
    (outYearly.headD dummyTxn).category ≠ JVal.null :=
  c3_rule_nonnull sampleYearly outYearly (by decide)
    (outYearly.headD dummyTxn) (by decide)

def quoteCh : Str := ['"']

/-- The service text `[ {"is_membership": true, "category": "X"} , twice ]`
used in the C3 counterexample. -/
def c3obj : Str :=
  ['\x7b'] ++ quoteCh ++ lit (r"is_membership") ++ quoteCh ++ lit (r": true, ") ++
    quoteCh ++ lit (r"category") ++ quoteCh ++ lit (r": ") ++
    quoteCh ++ lit (r"X") ++ quoteCh ++ ['\x7d']

def c3content : Str := '[' :: (c3obj ++ ',' :: c3obj) ++ [']']

/-- Two same-merchant transactions (so the one-time filter keeps them). -/
def tsC3 : List Txn := [tNetflix, { tNetflix with amount := 11, date := 30 }]

def outC3 : List Txn := (classifyTransactionsAI [some c3content] tsC3).getD []

unseal Rat.add Rat.mul Rat.sub Rat.inv in
/-- Counterexample for C3 as stated: under the model-assisted strategy, a
service classification with `is_membership: true` but no `frequency` and no
`membership_type` entries flows through to the returned membership-only
records with both fields null. -/
theorem c3_counterexample :
    classifyTransactionsAI [some c3content] tsC3 = some outC3 ∧
    (outC3.headD dummyTxn) ∈ outC3 ∧
    truthy (outC3.headD dummyTxn).is_membership = true ∧
    (outC3.headD dummyTxn).frequency = JVal.null ∧
    (outC3.headD dummyTxn).membership_type = JVal.null := by
  refine ⟨by decide, by decide, by decide, by decide, by decide⟩

/-! Claim C1: the one-time-payment filter and its grouping key. -/

/-- The two-transaction input of the C1 counterexample: distinct categories
(taken from the descriptions), same all-digit merchants normalizing to the
same `"Unknown"` grouping key. -/
def tsC1 : List Txn :=
  [{ amount := 10, date := 0, description := lit (r"NETFLIX SUBSCRIPTION"),
     merchant := lit (r"1234") },
   { amount := 20, date := 5, description := lit (r"SPOTIFY SUBSCRIPTION"),
     merchant := lit (r"5678") }]

unseal Rat.add Rat.mul Rat.sub Rat.inv in
/-- Counterexample for C1 as stated: in `tsC1` the category `"NETFLIX"` has
exactly one membership-flagged transaction, yet it appears in the final
membership-only output — the filter groups by normalized merchant (here both
records collapse to `"Unknown"`, a group of two), not by category. -/
theorem c1_counterexample :
    (ruleBasedClassify tsC1).map (fun c => c.countP
      (fun t => truthy t.is_membership &&
        (t.category = JVal.str (lit (r"NETFLIX"))))) = some 1 ∧
    (classifyTransactionsRule tsC1).map (List.map (fun t => t.category)) =
      some [JVal.str (lit (r"NETFLIX")), JVal.str (lit (r"SPOTIFY"))] := by
  refine ⟨by decide, by decide⟩

/-- C1 (amended): after classification by either strategy, the one-time
filter groups the membership-flagged records by their normalized merchant key
(`"Unknown"` when nothing remains) and demotes singleton groups; hence a
normalized-merchant key carried by exactly one flagged classified record is
absent from the final membership-only output. -/
theorem c1_singleton_merchant_absent :
    (∀ (ts c out : List Txn), ruleBasedClassify ts = some c →
      classifyTransactionsRule ts = some out →
      ∀ k, flaggedKeyCount c k = 1 → ∀ r ∈ out, filterKey r ≠ k) ∧
    (∀ (contents : List (Option Str)) (ts c out : List Txn),
      classifyBatches contents (chunksGo ts.length ts) = some c →
      classifyTransactionsAI contents ts = some out →
      ∀ k, flaggedKeyCount c k = 1 → ∀ r ∈ out, filterKey r ≠ k) := by
  have core : ∀ (c : List Txn) (k : Str), flaggedKeyCount c k = 1 →
      ∀ r ∈ postProcess c, filterKey r ≠ k := by
    intro c k hk r hr hkey
    obtain ⟨r0, _, _, hcount, _, _, _, _, _, _, hfk⟩ := mem_postProcess c r hr
    rw [hfk, hkey] at hcount
    exact hcount hk
  constructor
  · intro ts c out hc hout k hk r hr
    unfold classifyTransactionsRule at hout
    rw [hc] at hout
    have : postProcess c = out := by
      simpa using hout
    rw [← this] at hr
    exact core c k hk r hr
  · intro contents ts c out hc hout k hk r hr
    unfold classifyTransactionsAI at hout
    rw [hc] at hout
    have : postProcess c = out := by
      simpa using hout
    rw [← this] at hr
    exact core c k hk r hr

/-- Witness input for C1 (amended): one NETFLIX record and two GYM records. -/
def tsW1 : List Txn :=
  [{ amount := 10, date := 0, description := lit (r"NETFLIX SUBSCRIPTION"),
     merchant := lit (r"NETFLIX") },
   { amount := 30, date := 0, description := lit (r"GYM MEMBERSHIP"),
     merchant := lit (r"GYM") },
   { amount := 30, date := 30, description := lit (r"GYM MEMBERSHIP"),
     merchant := lit (r"GYM") }]

def cW1 : List Txn := (ruleBasedClassify tsW1).getD []

def outW1 : List Txn := (classifyTransactionsRule tsW1).getD []

unseal Rat.add Rat.mul Rat.sub Rat.inv in
/-- Witness for C1 (amended): the singleton NETFLIX key is absent from the
final rule-based output of `tsW1`. -/
theorem c1_witness :
    flaggedKeyCount cW1 (lit (r"NETFLIX")) = 1 ∧
    ∀ r ∈ outW1, filterKey r ≠ lit (r"NETFLIX") :=
  ⟨by decide, c1_singleton_merchant_absent.1 tsW1 cW1 outW1 (by decide) (by decide)
    (lit (r"NETFLIX")) (by decide)⟩

/-! Claim C9: classify_transactions never revises amount, date or merchant. -/

/-- C9: under either strategy, every record in the output of
classify_transactions carries the amount, date and merchant of some input
transaction — the classifier stages only fill in the classification fields. -/
theorem c9_frame :
    (∀ (ts out : List Txn), classifyTransactionsRule ts = some out →
      ∀ r ∈ out, ∃ t ∈ ts,
        r.amount = t.amount ∧ r.date = t.date ∧ r.merchant = t.merchant) ∧
    (∀ (contents : List (Option Str)) (ts out : List Txn),
      classifyTransactionsAI contents ts = some out →
      ∀ r ∈ out, ∃ t ∈ ts,
        r.amount = t.amount ∧ r.date = t.date ∧ r.merchant = t.merchant) := by
  constructor
  · intro ts out h r hr
    unfold classifyTransactionsRule at h
    obtain ⟨c, hc, rfl⟩ := Option.map_eq_some'.mp h
    obtain ⟨r0, hr0, _, _, _, _, _, ha0, hd0, hm0, _⟩ := mem_postProcess c r hr
    obtain ⟨t, ht, ha, hd, hm⟩ := ruleBased_fields ts c hc r0 hr0
    exact ⟨t, ht, ha0 ▸ ha, hd0 ▸ hd, hm0 ▸ hm⟩
  · intro contents ts out h r hr
    unfold classifyTransactionsAI at h
    obtain ⟨c, hc, rfl⟩ := Option.map_eq_some'.mp h
    obtain ⟨r0, hr0, _, _, _, _, _, ha0, hd0, hm0, _⟩ := mem_postProcess c r hr
    obtain ⟨b, hb, t, ht, ha, hd, hm⟩ :=
      classifyBatches_fields (chunksGo ts.length ts) contents c hc r0 hr0
    exact ⟨t, chunksGo_mem ts.length ts b hb t ht, ha0 ▸ ha, hd0 ▸ hd, hm0 ▸ hm⟩

unseal Rat.add Rat.mul Rat.sub Rat.inv in
/-- Witness for C9: the head of the rule-based output on the Yearly sample,
and of the model-assisted output on the C3 batch, both inherit their amount,
date and merchant from the respective input lists. -/
theorem c9_witness :
    (∃ t ∈ sampleYearly,
      (outYearly.headD dummyTxn).amount = t.amount ∧
      (outYearly.headD dummyTxn).date = t.date ∧
      (outYearly.headD dummyTxn).merchant = t.merchant) ∧
    (∃ t ∈ tsC3,
      (outC3.headD dummyTxn).amount = t.amount ∧
      (outC3.headD dummyTxn).date = t.date ∧
      (outC3.headD dummyTxn).merchant = t.merchant) :=
  ⟨c9_frame.1 sampleYearly outYearly (by decide) (outYearly.headD dummyTxn)
      (by decide),
   c9_frame.2 [some c3content] tsC3 outC3 (by decide) (outC3.headD dummyTxn)
      (by decide)⟩

/-! Claim C4: MembershipClassifier.analyze_frequency. -/

/-- An input record of analyze_frequency: a dict with "date" and "amount"
entries, an optional "category" entry and an "is_membership" entry (absent
modelled as null, which is falsy, matching dict.get). -/
structure FTxn where
  is_membership : JVal := JVal.null
  category : Option JVal := none
  date : Int := 0
  amount : ℚ := 0
deriving DecidableEq

/-- t.get("category", "Unknown"). -/
def catKey (t : FTxn) : JVal := t.category.getD (JVal.str (lit (r"Unknown")))

/-- The membership-flagged records, in input order. -/
def flaggedF (ts : List FTxn) : List FTxn :=
  ts.filter (fun t => truthy t.is_membership)

/-- by_category[k]: the (date, amount) pairs appended for key k, in order. -/
def paysOf (ts : List FTxn) (k : JVal) : List (Int × ℚ) :=
  ((flaggedF ts).filter (fun t => catKey t == k)).map (fun t => (t.date, t.amount))

/-- First-occurrence deduplication, the iteration order of a (default)dict
whose keys were inserted in list order. -/
def dedupKeys : List JVal → List JVal
  | [] => []
  | k :: rest => k :: (dedupKeys rest).filter (fun x => x != k)

/-- The iteration order of by_category. -/
def catsOf (ts : List FTxn) : List JVal := dedupKeys ((flaggedF ts).map catKey)

/-- Insert a payment into a date-sorted list, after equal dates (stability of
list.sort(key=...)). -/
def sortInsert (p : Int × ℚ) : List (Int × ℚ) → List (Int × ℚ)
  | [] => [p]
  | q :: rest => if p.1 < q.1 then p :: q :: rest else q :: sortInsert p rest

/-- payments.sort(key=lambda x: x["date"]) as a stable insertion sort. -/
def sortPays : List (Int × ℚ) → List (Int × ℚ)
  | [] => []
  | p :: rest => sortInsert p (sortPays rest)

/-- Day gaps between consecutive dates. -/
def gaps : List Int → List Int
  | a :: b :: rest => (b - a) :: gaps (b :: rest)
  | _ => []

/-- Python int() on a float: truncation toward zero. -/
def pyInt (q : ℚ) : Int := q.num.tdiv q.den

/-- Decimal representation of an integer. -/
def intRepr (i : Int) : Str :=
  if i < 0 then '-' :: (Nat.repr i.natAbs).toList else (Nat.repr i.natAbs).toList

/-- avg_interval = sum(intervals) / len(intervals) for category k. -/
def avgGap (ts : List FTxn) (k : JVal) : ℚ :=
  (((gaps ((sortPays (paysOf ts k)).map Prod.fst)).sum : Int) : ℚ) /
    ((gaps ((sortPays (paysOf ts k)).map Prod.fst)).length : ℚ)

/-- The frequency label computed by analyze_frequency (branch order of the
source; f-string with int(avg_interval) in the default branch). -/
def freqLabel (avg : ℚ) : Str :=
  if 25 ≤ avg ∧ avg ≤ 35 then lit (r"Monthly")
  else if 85 ≤ avg ∧ avg ≤ 95 then lit (r"Quarterly")
  else if 360 ≤ avg ∧ avg ≤ 370 then lit (r"Yearly")
  else if 175 ≤ avg ∧ avg ≤ 185 then lit (r"Bi-annual")
  else if 7 ≤ avg ∧ avg ≤ 9 then lit (r"Weekly")
  else lit (r"Every ") ++ intRepr (pyInt avg) ++ lit (r" days")

/-- The value stored under frequency_analysis[category]. -/
structure FreqEntry where
  frequency : Str
  avg_interval_days : ℚ
  count : Nat
  total_amount : ℚ
  avg_amount : ℚ
deriving DecidableEq

/-- The entry built for a category that passes both guards. -/
def mkEntry (ts : List FTxn) (k : JVal) : FreqEntry :=
  { frequency := freqLabel (avgGap ts k),
    avg_interval_days := avgGap ts k,
    count := (sortPays (paysOf ts k)).length,
    total_amount := ((sortPays (paysOf ts k)).map Prod.snd).sum,
    avg_amount := ((sortPays (paysOf ts k)).map Prod.snd).sum /
      ((sortPays (paysOf ts k)).length : ℚ) }

/-- The loop body: skip categories with fewer than 2 payments, then guard on
nonempty intervals, else store the computed entry. -/
def fAnalyze (ts : List FTxn) (k : JVal) : Option (JVal × FreqEntry) :=
  if (paysOf ts k).length < 2 then none
  else if gaps ((sortPays (paysOf ts k)).map Prod.fst) = [] then none
  else some (k, mkEntry ts k)

/-- MembershipClassifier.analyze_frequency: the frequency_analysis dict as an
association list in key-insertion order. -/
def analyzeFrequency (ts : List FTxn) : List (JVal × FreqEntry) :=
  (catsOf ts).filterMap (fAnalyze ts)

theorem mem_dedupKeys (k : JVal) : ∀ l, k ∈ dedupKeys l ↔ k ∈ l := by
  intro l
  induction l with
  | nil => simp [dedupKeys]
  | cons a rest ih =>
    simp only [dedupKeys, List.mem_cons, List.mem_filter]
    constructor
    · rintro (rfl | ⟨h1, _⟩)
      · exact Or.inl rfl
      · exact Or.inr (ih.mp h1)
    · rintro (rfl | h)
      · exact Or.inl rfl
      · by_cases hk : k = a
        · exact Or.inl hk
        · exact Or.inr ⟨ih.mpr h, by simpa using hk⟩

theorem sortInsert_length (p : Int × ℚ) :
    ∀ l, (sortInsert p l).length = l.length + 1 := by
  intro l
  induction l with
  | nil => rfl
  | cons q rest ih =>
    simp only [sortInsert]
    split
    · simp
    · simp [ih]

theorem sortPays_length : ∀ l, (sortPays l).length = l.length := by
  intro l
  induction l with
  | nil => rfl
  | cons p rest ih => simp [sortPays, sortInsert_length, ih]

theorem gaps_ne_nil (l : List Int) (h : 2 ≤ l.length) : gaps l ≠ [] := by
  match l with
  | [] => simp at h
  | [a] => simp at h
  | a :: b :: rest => simp [gaps]

theorem mem_catsOf (ts : List FTxn) (k : JVal) :
    k ∈ catsOf ts ↔ paysOf ts k ≠ [] := by
  unfold catsOf paysOf
  rw [mem_dedupKeys]
  constructor
  · intro h hnil
    obtain ⟨t, ht, hk⟩ := List.mem_map.mp h
    have hnil2 := List.map_eq_nil_iff.mp hnil
    have := List.filter_eq_nil_iff.mp hnil2 t ht
    simp only [beq_iff_eq] at this
    exact this hk
  · intro hne
    rcases hl : (flaggedF ts).filter (fun t => catKey t == k) with _ | ⟨t, rest⟩
    · rw [hl] at hne
      simp at hne
    · have ht : t ∈ (flaggedF ts).filter (fun t => catKey t == k) := by
        rw [hl]; exact List.mem_cons_self t rest
      obtain ⟨htm, htk⟩ := List.mem_filter.mp ht
      simp only [beq_iff_eq] at htk
      exact List.mem_map.mpr ⟨t, htm, htk⟩

/-- The source's branch order agrees with the spec's bucket order: the ranges
are disjoint. -/
def specCadence (avg : ℚ) : Str :=
  if 25 ≤ avg ∧ avg ≤ 35 then lit (r"Monthly")
  else if 85 ≤ avg ∧ avg ≤ 95 then lit (r"Quarterly")
  else if 175 ≤ avg ∧ avg ≤ 185 then lit (r"Bi-annual")
  else if 360 ≤ avg ∧ avg ≤ 370 then lit (r"Yearly")
  else if 7 ≤ avg ∧ avg ≤ 9 then lit (r"Weekly")
  else lit (r"Every ") ++ intRepr (pyInt avg) ++ lit (r" days")

theorem freqLabel_eq_specCadence (avg : ℚ) : freqLabel avg = specCadence avg := by
  unfold freqLabel specCadence
  split_ifs <;> first
    | rfl
    | (exfalso; rename_i h1 h2;
        obtain ⟨a, b⟩ := h1; obtain ⟨c, d⟩ := h2; linarith)

/-- C4 (amended): a category appears in the analyze_frequency result exactly
when it has at least 2 membership-flagged observations, and its cadence is
the spec's inclusive-range bucketing of the average day-gap of the
date-sorted payments, with the out-of-range label "Every N days" taking N as
the average TRUNCATED toward zero (not rounded). -/
theorem c4_cadence (ts : List FTxn) (k : JVal) :
    ((∃ e, (k, e) ∈ analyzeFrequency ts) ↔ 2 ≤ (paysOf ts k).length) ∧
    ∀ e, (k, e) ∈ analyzeFrequency ts →
      e.frequency = specCadence (avgGap ts k) ∧
      e.count = (paysOf ts k).length := by
  have fwd : ∀ e, (k, e) ∈ analyzeFrequency ts →
      2 ≤ (paysOf ts k).length ∧ e = mkEntry ts k := by
    intro e he
    obtain ⟨a, ha, hfa⟩ := List.mem_filterMap.mp he
    unfold fAnalyze at hfa
    split_ifs at hfa with h1 h2
    injection hfa with h3
    rw [Prod.mk.injEq] at h3
    obtain ⟨rfl, rfl⟩ := h3
    exact ⟨by omega, rfl⟩
  constructor
  · constructor
    · rintro ⟨e, he⟩
      exact (fwd e he).1
    · intro h2
      have hne : paysOf ts k ≠ [] := by
        intro h
        rw [h] at h2
        simp at h2
      have hk : k ∈ catsOf ts := (mem_catsOf ts k).mpr hne
      have hgaps : gaps ((sortPays (paysOf ts k)).map Prod.fst) ≠ [] := by
        apply gaps_ne_nil
        rw [List.length_map, sortPays_length]
        exact h2
      refine ⟨mkEntry ts k, List.mem_filterMap.mpr ⟨k, hk, ?_⟩⟩
      unfold fAnalyze
      rw [if_neg (by omega), if_neg hgaps]
  · intro e he
    obtain ⟨h2, rfl⟩ := fwd e he
    constructor
    · show freqLabel (avgGap ts k) = specCadence (avgGap ts k)
      exact freqLabel_eq_specCadence _
    · show (sortPays (paysOf ts k)).length = _
      exact sortPays_length _

/-- Three same-category payments at days 0, 41 and 83: gaps 41 and 42,
average 41.5. -/
def tsC4 : List FTxn :=
  [{ is_membership := JVal.bool true,
     category := some (JVal.str (lit (r"GYM"))), date := 0, amount := 30 },
   { is_membership := JVal.bool true,
     category := some (JVal.str (lit (r"GYM"))), date := 41, amount := 30 },
   { is_membership := JVal.bool true,
     category := some (JVal.str (lit (r"GYM"))), date := 83, amount := 30 }]

def dEntry : FreqEntry :=
  { frequency := [], avg_interval_days := 0, count := 0,
    total_amount := 0, avg_amount := 0 }

unseal Rat.add Rat.mul Rat.sub Rat.inv in
/-- Counterexample for C4 as stated: at average gap 41.5 the code labels the
cadence with the truncated average ("Every 41 days"), while the claim's
rounded average is 42 ("Every 42 days"). -/
theorem c4_counterexample :
    ((analyzeFrequency tsC4).headD (JVal.null, dEntry)).2.avg_interval_days =
      83 / 2 ∧
    ((analyzeFrequency tsC4).headD (JVal.null, dEntry)).2.frequency =
      lit (r"Every 41 days") ∧
    roundHalfEven (83 / 2) = 42 ∧
    lit (r"Every 41 days") ≠ lit (r"Every 42 days") := by
  refine ⟨by decide, by decide, by decide, by decide⟩

/-- Four categories with average gaps 30, 365, 8 and 40. -/
def tsW4 : List FTxn :=
  [{ is_membership := JVal.bool true,
     category := some (JVal.str (lit (r"A"))), date := 0, amount := 10 },
   { is_membership := JVal.bool true,
     category := some (JVal.str (lit (r"A"))), date := 30, amount := 10 },
   { is_membership := JVal.bool true,
     category := some (JVal.str (lit (r"B"))), date := 0, amount := 100 },
   { is_membership := JVal.bool true,
     category := some (JVal.str (lit (r"B"))), date := 365, amount := 100 },
   { is_membership := JVal.bool true,
     category := some (JVal.str (lit (r"C"))), date := 0, amount := 5 },
   { is_membership := JVal.bool true,
     category := some (JVal.str (lit (r"C"))), date := 8, amount := 5 },
   { is_membership := JVal.bool true,
     category := some (JVal.str (lit (r"D"))), date := 0, amount := 7 },
   { is_membership := JVal.bool true,
     category := some (JVal.str (lit (r"D"))), date := 40, amount := 7 }]

unseal Rat.add Rat.mul Rat.sub Rat.inv in
/-- Witness for C4 (amended) at tsW4: category "A" is present, its stored
cadence is the spec bucketing of its average gap, and the four averages
bucket to Monthly, Yearly, Weekly and "Every 40 days". -/
theorem c4_witness :
    (∃ e, (JVal.str (lit (r"A")), e) ∈ analyzeFrequency tsW4) ∧
    ((analyzeFrequency tsW4).headD (JVal.null, dEntry)).2.frequency =
      specCadence (avgGap tsW4 (JVal.str (lit (r"A")))) ∧
    specCadence (avgGap tsW4 (JVal.str (lit (r"A")))) = lit (r"Monthly") ∧
    specCadence (avgGap tsW4 (JVal.str (lit (r"B")))) = lit (r"Yearly") ∧
    specCadence (avgGap tsW4 (JVal.str (lit (r"C")))) = lit (r"Weekly") ∧
    specCadence (avgGap tsW4 (JVal.str (lit (r"D")))) = lit (r"Every 40 days") :=
  ⟨(c4_cadence tsW4 (JVal.str (lit (r"A")))).1.mpr (by decide),
   ((c4_cadence tsW4 (JVal.str (lit (r"A")))).2
      ((analyzeFrequency tsW4).headD (JVal.null, dEntry)).2 (by decide)).1,
   by decide, by decide, by decide, by decide⟩
